import Mathlib

/-!
Verification of the meal-planner text-processing core.

This file gives a shallow embedding (over `List Char`, ASCII fragment) of the
pure text-processing routines of the repository:

* `parse_meal_plan_by_day` of `main.py` (header-only segmentation with the
  pattern `DAY\s+\d+\s*:\s*([A-Z]+)`, case-insensitive), embedded as
  `parse_meal_plan_by_day_main`;
* `parse_meal_plan_by_day` of `foodlogger.py` (delimiter-aware segmentation
  with the pattern `(?i)(DAY\s+\d+[\s:.-]*([A-Za-z]+))\s*(.*?)(?:\s*-=\*=-|$)`
  under DOTALL), embedded as `parse_meal_plan_by_day_fl`;
* the JSON-payload selection and parse-failure handling of
  `recognize_food` in `foodlogger.py`, embedded as `choose_json_payload`
  and `recognize_food_norm` (the HTTP/image plumbing is I/O and is not part
  of the embedding; `json.loads` is an external library call and is taken
  as an abstract parameter);
* the exception-to-string mapping of `generate_meal_plan` in both files,
  embedded as `generate_meal_plan_fl` / `generate_meal_plan_main` over an
  abstract outcome of the network call;
* the nutrient extractor described in the specification (its code is not in
  the two source files available), modelled from the spec.

Python `re` semantics are embedded by hand for the two concrete patterns.
Both patterns are deterministic for maximal-munch matching of their greedy
pieces (all adjacent greedy character classes are disjoint, and the tail of
the delimiter-aware pattern always matches because of the `$` alternative),
so the backtracking engine reduces to the direct-style matchers below; the
lazy group `(.*?)` is embedded as an explicit shortest-match search.
Character classes are the ASCII fragments of Python's `\s`, `\d`, `[A-Za-z]`.
-/

/-- ASCII fragment of Python's `\s` (also used by `str.strip()`). -/
def isSpaceChar (c : Char) : Bool :=
  c = ' ' || c = '\t' || c = '\n' || c = '\r' || c = '\x0b' || c = '\x0c'

/-- ASCII `\d`. -/
def isDigitChar (c : Char) : Bool :=
  '0' ≤ c && c ≤ '9'

/-- ASCII letters: `[A-Za-z]`, which is also `[A-Z]` under `re.IGNORECASE`. -/
def isAsciiLetter (c : Char) : Bool :=
  ('A' ≤ c && c ≤ 'Z') || ('a' ≤ c && c ≤ 'z')

/-- The character class `[\s:.-]` of the foodlogger day-header pattern. -/
def isSepChar (c : Char) : Bool :=
  isSpaceChar c || c = ':' || c = '.' || c = '-'

/-- ASCII lower-casing of a single character. -/
def asciiLower (c : Char) : Char :=
  if 'A' ≤ c && c ≤ 'Z' then Char.ofNat (c.toNat + 32) else c

/-- ASCII upper-casing of a single character. -/
def asciiUpper (c : Char) : Char :=
  if 'a' ≤ c && c ≤ 'z' then Char.ofNat (c.toNat - 32) else c

/-- Python `str.capitalize()`: first character upper-cased, the rest
lower-cased (ASCII fragment). -/
def pyCapitalize : List Char → List Char
  | [] => []
  | c :: rest => asciiUpper c :: rest.map asciiLower

/-- Python `str.strip()` with no argument (ASCII whitespace fragment). -/
def pyStrip (s : List Char) : List Char :=
  ((s.dropWhile isSpaceChar).reverse.dropWhile isSpaceChar).reverse

/-- Python `dict` assignment `d[k] = v`: updating an existing key keeps its
insertion position and replaces the value; a new key is appended.  The dict
is modelled as its insertion-ordered key/value list. -/
def dictUpdate (m : List (List Char × List Char)) (k v : List Char) :
    List (List Char × List Char) :=
  if m.any (fun p => p.1 = k) then
    m.map (fun p => if p.1 = k then (k, v) else p)
  else
    m ++ [(k, v)]

/-- Folding `dictUpdate` over an entry list, starting from the empty dict:
the result of running a Python loop of `d[k] = v` assignments. -/
def dfold (kvs : List (List Char × List Char)) : List (List Char × List Char) :=
  kvs.foldl (fun m kv => dictUpdate m kv.1 kv.2) []

/-- Number of entries of the dict whose key is `k`. -/
def countKey (m : List (List Char × List Char)) (k : List Char) : Nat :=
  (m.filter (fun p => p.1 = k)).length

/-- Value stored under `k` (first entry with that key). -/
def lookupKey (m : List (List Char × List Char)) (k : List Char) :
    Option (List Char) :=
  (m.find? (fun p => p.1 = k)).map (fun p => p.2)

/-! ### The header-only parser of `main.py`

`day_pattern = r'DAY\s+\d+\s*:\s*([A-Z]+)'` with `re.IGNORECASE`;
for each match the segment runs from the match start to the next match
start (or end of text), is stripped, and is stored under the capitalized
captured name. -/

/-- Case-insensitive match of the literal `DAY` at the head of the input;
returns the remainder. -/
def matchDayCI : List Char → Option (List Char)
  | c1 :: c2 :: c3 :: rest =>
    if (c1 = 'D' || c1 = 'd') && (c2 = 'A' || c2 = 'a') && (c3 = 'Y' || c3 = 'y') then
      some rest
    else
      none
  | _ => none

/-- Maximal-munch match of a one-or-more character class (`\s+`, `\d+`,
`[A-Z]+`): the nonempty maximal run satisfying `p` and the remainder. -/
def reqClass (p : Char → Bool) (s : List Char) : Option (List Char × List Char) :=
  if s.takeWhile p = [] then none else some (s.takeWhile p, s.dropWhile p)

/-- Maximal-munch match of a zero-or-more character class (`\s*`,
`[\s:.-]*`): the maximal run satisfying `p` and the remainder. -/
def optClass (p : Char → Bool) (s : List Char) : List Char × List Char :=
  (s.takeWhile p, s.dropWhile p)

/-- Match one literal character. -/
def reqChar (c : Char) : List Char → Option (List Char)
  | [] => none
  | x :: rest => if x = c then some rest else none

/-- Anchored match of `DAY\s+\d+\s*:\s*([A-Z]+)` (with `IGNORECASE`) at the
head of the input.  Returns the captured day name and the total number of
characters the match consumes.  All greedy pieces are maximal-munch because
each pair of adjacent character classes is disjoint. -/
def matchAtMain (s : List Char) : Option (List Char × Nat) := do
  let r1 ← matchDayCI s
  let (ws1, r2) ← reqClass isSpaceChar r1
  let (ds, r3) ← reqClass isDigitChar r2
  let (ws2, r4) := optClass isSpaceChar r3
  let r5 ← reqChar ':' r4
  let (ws3, r6) := optClass isSpaceChar r5
  let (nm, _) ← reqClass isAsciiLetter r6
  some (nm, 3 + ws1.length + ds.length + ws2.length + 1 + ws3.length + nm.length)

/-- `re.finditer` for the `main.py` pattern: scan left to right, on a match
record its start position and captured name and resume after the match.
The fuel argument (initially the input length) makes the recursion
structural; it never runs out because every step consumes at least one
character. -/
def scanMainAux : Nat → List Char → Nat → List (Nat × List Char)
  | 0, _, _ => []
  | _ + 1, [], _ => []
  | f + 1, c :: rest, pos =>
    match matchAtMain (c :: rest) with
    | some (nm, len) => (pos, nm) :: scanMainAux f ((c :: rest).drop len) (pos + len)
    | none => scanMainAux f rest (pos + 1)

/-- All matches of the `main.py` day pattern, as (start position, name). -/
def scanMain (s : List Char) : List (Nat × List Char) :=
  scanMainAux s.length s 0

/-- The per-day entries of `main.py`'s loop: for each match, the key is the
capitalized name and the value is the stripped slice of the input from the
match start to the next match start (or to the end of the text). -/
def segmentsMain (t : List Char) : List (Nat × List Char) → List (List Char × List Char)
  | [] => []
  | (p, nm) :: rest =>
    let e := match rest with
      | [] => t.length
      | (q, _) :: _ => q
    (pyCapitalize nm, pyStrip ((t.drop p).take (e - p))) :: segmentsMain t rest

/-- The raw (unstripped) segment slices, used to state the reconstruction
property. -/
def rawSegsMain (t : List Char) : List (Nat × List Char) → List (List Char)
  | [] => []
  | (p, _) :: rest =>
    let e := match rest with
      | [] => t.length
      | (q, _) :: _ => q
    ((t.drop p).take (e - p)) :: rawSegsMain t rest

/-- `parse_meal_plan_by_day` of `main.py`. -/
def parse_meal_plan_by_day_main (t : List Char) : List (List Char × List Char) :=
  let d := dfold (segmentsMain t (scanMain t))
  if d.isEmpty then [("Full Plan".toList, t)] else d

/-! ### The delimiter-aware parser of `foodlogger.py`

`pattern = r"(?i)(DAY\s+\d+[\s:.-]*([A-Za-z]+))\s*(.*?)(?:\s*-=\*=-|$)"`
with `re.DOTALL`; each match stores `f"{header}\n{content}"` (both
stripped) under the capitalized captured name. -/

/-- The end-of-day delimiter `-=*=-`. -/
def DELIM : List Char := ['-', '=', '*', '=', '-']

/-- Anchored match of the alternative `\s*-=\*=-`: maximal whitespace run
followed by the literal delimiter; returns the remainder after the
delimiter. -/
def matchDelim (s : List Char) : Option (List Char) :=
  let r := s.dropWhile isSpaceChar
  if DELIM.isPrefixOf r then some (r.drop 5) else none

/-- The lazy group `(.*?)` (DOTALL) followed by `(?:\s*-=\*=-|$)`: the
shortest prefix after which either the whitespace-then-delimiter
alternative matches, or `$` matches (end of string, or just before a
newline that ends the string).  Returns the captured content and the
remainder of the input after the whole tail. -/
def lazyContent : List Char → List Char × List Char
  | [] => ([], [])
  | c :: rest =>
    match matchDelim (c :: rest) with
    | some r => ([], r)
    | none =>
      if c = '\n' && rest = [] then ([], ['\n'])
      else
        let p := lazyContent rest
        (c :: p.1, p.2)

/-- Case-insensitive match of the literal `DAY`, keeping the matched
characters (they are part of capture group 1 of the foodlogger pattern). -/
def matchDayChars : List Char → Option (List Char × List Char)
  | c1 :: c2 :: c3 :: rest =>
    if (c1 = 'D' || c1 = 'd') && (c2 = 'A' || c2 = 'a') && (c3 = 'Y' || c3 = 'y') then
      some ([c1, c2, c3], rest)
    else
      none
  | _ => none

/-- Anchored match of the header group
`(DAY\s+\d+[\s:.-]*([A-Za-z]+))` at the head of the input.  Returns
(group 1, group 2, remainder).  Again all greedy pieces are
maximal-munch by disjointness of adjacent classes. -/
def matchHeaderFL (s : List Char) : Option (List Char × List Char × List Char) := do
  let (d, r1) ← matchDayChars s
  let (ws1, r2) ← reqClass isSpaceChar r1
  let (ds, r3) ← reqClass isDigitChar r2
  let (seps, r4) := optClass isSepChar r3
  let (nm, r5) ← reqClass isAsciiLetter r4
  some (d ++ ws1 ++ ds ++ seps ++ nm, nm, r5)

/-- One match of the foodlogger pattern: group 1 (header), group 2 (day
name), group 3 (content). -/
structure FLMatch where
  header : List Char
  dayName : List Char
  content : List Char
deriving DecidableEq

/-- Anchored match of the full foodlogger pattern at the head of the input;
returns the match and the remainder of the input after the match (where
`re.finditer` resumes). -/
def matchAtFL (s : List Char) : Option (FLMatch × List Char) :=
  match matchHeaderFL s with
  | none => none
  | some (g1, g2, r5) =>
    let r6 := r5.dropWhile isSpaceChar
    let p := lazyContent r6
    some ({ header := g1, dayName := g2, content := p.1 }, p.2)

/-- `re.finditer` for the foodlogger pattern (fuel-structured as above). -/
def scanFLAux : Nat → List Char → List FLMatch
  | 0, _ => []
  | _ + 1, [] => []
  | f + 1, c :: rest =>
    match matchAtFL (c :: rest) with
    | some (m, r) => m :: scanFLAux f r
    | none => scanFLAux f rest

/-- All matches of the foodlogger pattern. -/
def scanFL (s : List Char) : List FLMatch :=
  scanFLAux s.length s

/-- The per-day entries of the foodlogger loop: capitalized day name
mapped to `f"{header}\n{content}"` with both parts stripped. -/
def entriesFL (s : List Char) : List (List Char × List Char) :=
  (scanFL s).map
    (fun m => (pyCapitalize m.dayName, pyStrip m.header ++ '\n' :: pyStrip m.content))

/-- `parse_meal_plan_by_day` of `foodlogger.py`. -/
def parse_meal_plan_by_day_fl (s : List Char) : List (List Char × List Char) :=
  let d := dfold (entriesFL s)
  if d.isEmpty then [("Full Plan".toList, s)] else d

/-! ### JSON payload selection and parse-failure handling of `recognize_food`
(`foodlogger.py`)

The network call, image encoding and the Mistral SDK are I/O and are outside
the embedding; the embedding starts from the model's `response_content`
text.  `json.loads` is a call into the Python standard library, so it enters
the embedding as an abstract parameter `jparse`; the repository's own logic
is the payload selection and the shaping of the success/failure results. -/

/-- Left brace. -/
def LB : Char := '{'

/-- Right brace. -/
def RB : Char := '}'

/-- Backtick. -/
def BT : Char := Char.ofNat 96

/-- The literal ` ``` ` closing/opening fence. -/
def FENCE3 : List Char := [BT, BT, BT]

/-- The literal ` ```json ` opening fence. -/
def FENCEJSON : List Char := FENCE3 ++ ['j', 's', 'o', 'n']

/-- The lazy group of `` ```json\s*(.*?)\s*``` `` (DOTALL): shortest prefix
followed by optional whitespace and a closing fence.  Returns the captured
content, or `none` when no closing fence follows. -/
def lazyToFence : List Char → Option (List Char)
  | [] => none
  | c :: rest =>
    if FENCE3.isPrefixOf ((c :: rest).dropWhile isSpaceChar) then some []
    else
      match lazyToFence rest with
      | some g => some (c :: g)
      | none => none

/-- `re.search(r'```json\s*(.*?)\s*```', text, re.DOTALL)`: the leftmost
position carrying a match wins; at a given start, the first greedy `\s*` is
maximal-munch (a backtick is not whitespace) and the lazy group stops at the
first closing fence (with the whitespace before it absorbed by the second
`\s*`). -/
def fencedJson : List Char → Option (List Char)
  | [] => none
  | c :: rest =>
    if FENCEJSON.isPrefixOf (c :: rest) then
      match lazyToFence (((c :: rest).drop 7).dropWhile isSpaceChar) with
      | some g => some g
      | none => fencedJson rest
    else fencedJson rest

/-- Helper for the greedy `(\{.*\})` match: the prefix of the input ending
at its last right brace, when the input holds one. -/
def upToLastRB : List Char → Option (List Char)
  | [] => none
  | c :: rest =>
    match upToLastRB rest with
    | some g => some (c :: g)
    | none => if c = RB then some [c] else none

/-- `re.search(r'(\{.*\})', text, re.DOTALL)`: from the first left brace,
the greedy `.*` runs to the last right brace of the whole text.  When no
right brace follows the first left brace, no later start can match either
(a right brace after a later left brace would also sit after the first),
so the search fails. -/
def braceSpan : List Char → Option (List Char)
  | [] => none
  | c :: rest =>
    if c = LB then
      match upToLastRB rest with
      | some g => some (c :: g)
      | none => none
    else braceSpan rest

/-- The payload-selection logic of `recognize_food`: the whole text when its
stripped form starts with a left brace; else the inner content of a
` ```json ` fence; else the greedy brace-to-brace span; else the text
itself (the Python code leaves `json_content` unchanged in that case). -/
def choose_json_payload (s : List Char) : List Char :=
  if (pyStrip s).head? = some LB then s
  else
    match fencedJson s with
    | some g => g
    | none =>
      match braceSpan s with
      | some g => g
      | none => s

/-- JSON values, as returned by the abstract `json.loads`. -/
inductive JValue where
  | null : JValue
  | bool : Bool → JValue
  | num : ℚ → JValue
  | str : List Char → JValue
  | arr : List JValue → JValue
  | obj : List (List Char × JValue) → JValue

/-- Lookup in a JSON object's field list (Python dict access). -/
def jLookup (fields : List (List Char × JValue)) (k : List Char) : Option JValue :=
  (fields.find? (fun p => p.1 = k)).map (fun p => p.2)

/-- Python `str.title()` (ASCII fragment): letters starting a letter-run are
upper-cased, the rest lower-cased. -/
def pyTitleAux : Bool → List Char → List Char
  | _, [] => []
  | prevAlpha, c :: rest =>
    if isAsciiLetter c then
      (if prevAlpha then asciiLower c else asciiUpper c) :: pyTitleAux true rest
    else
      c :: pyTitleAux false rest

/-- Python `str.title()` (ASCII fragment). -/
def pyTitle (s : List Char) : List Char := pyTitleAux false s

/-- Rendering of a JSON value into display text, standing in for Python's
`f"{value}"`.  No claim depends on the exact digits printed, only on the
structure of the summary. -/
def jShow : JValue → List Char
  | JValue.null => "None".toList
  | JValue.bool true => "True".toList
  | JValue.bool false => "False".toList
  | JValue.num q => (toString q).toList
  | JValue.str s => s
  | JValue.arr _ => "[...]".toList
  | JValue.obj _ => "\x7b...\x7d".toList

/-- One `- {nutrient.title()}: {value} {unit}` line of
`format_nutritional_data`; the unit is `kcal` for the `calories` key and
`g` otherwise. -/
def nutrientLine (nutrient : List Char) (value : JValue) : List Char :=
  let unit := if nutrient = "calories".toList then "kcal".toList else "g".toList
  "- ".toList ++ pyTitle nutrient ++ ": ".toList ++ jShow value ++ " ".toList ++ unit

/-- The lines an ingredient's nutrient mapping contributes (non-object
nutrient values contribute nothing; the Python code would raise there and
fall into the outer handler, a corner no claim touches). -/
def ingredientLines : List Char × JValue → List (List Char)
  | (ingredient, JValue.obj nutrients) =>
    ("#### ".toList ++ pyTitle ingredient) ::
      nutrients.map (fun p => nutrientLine p.1 p.2)
  | (ingredient, _) => ["#### ".toList ++ pyTitle ingredient]

/-- `format_nutritional_data` of `foodlogger.py`: meal heading, per-
ingredient subsections, and the totals subsection, joined by newlines. -/
def format_nutritional_data (data : JValue) : List Char :=
  match data with
  | JValue.obj fields =>
    let mealPart := match jLookup fields "meal".toList with
      | some v => [("## ".toList ++ jShow v)]
      | none => []
    let ingPart := match jLookup fields "ingredients".toList with
      | some (JValue.obj ings) =>
        "### Ingredients:".toList :: (ings.map ingredientLines).flatten
      | some _ => ["### Ingredients:".toList]
      | none => []
    let totPart := match jLookup fields "total".toList with
      | some (JValue.obj tot) =>
        "### Total Nutritional Value:".toList :: tot.map (fun p => nutrientLine p.1 p.2)
      | some _ => ["### Total Nutritional Value:".toList]
      | none => []
    (List.intersperse ['\n'] (mealPart ++ ingPart ++ totPart)).flatten
  | _ => []

/-- The result of `recognize_food`'s response handling: the success
dictionary (with its `raw_data` key), the parse-failure dictionary (which
has no `raw_data` key), or the error string of the outer exception
handler. -/
inductive RecognizeResult where
  | ok : List JValue → List Char → JValue → RecognizeResult
  | fail : List JValue → List Char → RecognizeResult
  | error : List Char → RecognizeResult

/-- The fixed text prepended to the raw response on a parse failure. -/
def failRespMsg : List Char :=
  "Could not parse nutritional data. Here's the raw response:\n\n".toList

/-- The response-handling core of `recognize_food` (`foodlogger.py`): select
the JSON payload, attempt the abstract parse, and shape the success or
failure dictionary.  A parse success whose value is not an object falls
into the outer exception handler (`.get` on a non-dict raises), as does a
non-object `ingredients` value (`.keys()` raises). -/
def recognize_food_norm (jparse : List Char → Option JValue)
    (response_content : List Char) : RecognizeResult :=
  match jparse (choose_json_payload response_content) with
  | none =>
    RecognizeResult.fail [JValue.str "Unknown".toList] (failRespMsg ++ response_content)
  | some nd =>
    match nd with
    | JValue.obj fields =>
      match jLookup fields "ingredients".toList with
      | some (JValue.obj ings) =>
        let detected := ings.map (fun p => JValue.str p.1)
        let detected :=
          if detected.isEmpty then
            match jLookup fields "meal".toList with
            | some mv => [mv]
            | none => []
          else detected
        RecognizeResult.ok detected (format_nutritional_data nd) nd
      | some _ =>
        RecognizeResult.error "Error recognizing food: ingredients is not a mapping".toList
      | none =>
        let detected : List JValue :=
          match jLookup fields "meal".toList with
          | some mv => [mv]
          | none => []
        RecognizeResult.ok detected (format_nutritional_data nd) nd
    | _ =>
      RecognizeResult.error "Error recognizing food: response is not a mapping".toList

/-! ### Nutrient extractor

Modelled from the spec: the nutrient extractor and its suggestion table are
part of this repository but their code is not among the source files
available here (only the two app variants are); §4.2 of the specification
defines them.  Numeric values are decimal literals `\d+(\.\d+)?`, modelled
exactly as (mantissa, number of fraction digits). -/

/-- The five fixed nutrients, in first-checked order. -/
inductive Nutrient where
  | calories : Nutrient
  | protein : Nutrient
  | carbs : Nutrient
  | fat : Nutrient
  | fiber : Nutrient
deriving DecidableEq

/-- The label searched for each nutrient. -/
def nutrientName : Nutrient → List Char
  | Nutrient.calories => "Calories".toList
  | Nutrient.protein => "Protein".toList
  | Nutrient.carbs => "Carbs".toList
  | Nutrient.fat => "Fat".toList
  | Nutrient.fiber => "Fiber".toList

/-- First-checked order of the five nutrients. -/
def nutrientOrder : List Nutrient :=
  [Nutrient.calories, Nutrient.protein, Nutrient.carbs, Nutrient.fat, Nutrient.fiber]

/-- Modelled from the spec: the fixed one-sentence suggestion for each
missing nutrient (the exact sentences live in the part of the repository
not available here; these stand for them, one fixed sentence per
nutrient). -/
def suggestionFor : Nutrient → List Char
  | Nutrient.calories => "Add an energy-dense snack to reach your calorie target.".toList
  | Nutrient.protein => "Add a lean protein source such as chicken, tofu or beans.".toList
  | Nutrient.carbs => "Add whole-grain carbohydrates such as rice or oats.".toList
  | Nutrient.fat => "Add healthy fats such as olive oil, nuts or avocado.".toList
  | Nutrient.fiber => "Add fiber-rich vegetables, fruits or legumes.".toList

/-- A decimal literal `\d+(\.\d+)?`: mantissa digits and the count of
fraction digits.  `42` is `⟨42, 0⟩`, `42.5` is `⟨425, 1⟩`. -/
structure Decimal where
  mant : Nat
  scale : Nat
deriving DecidableEq

/-- The rational value a decimal literal denotes. -/
def Decimal.toRat (d : Decimal) : ℚ := (d.mant : ℚ) / (10 : ℚ) ^ d.scale

/-- Numeric value of a digit character. -/
def digitVal (c : Char) : Nat := c.toNat - '0'.toNat

/-- Fold a digit run into a natural number, extending `acc`. -/
def digitsToNat (acc : Nat) : List Char → Nat
  | [] => acc
  | c :: rest => digitsToNat (acc * 10 + digitVal c) rest

/-- Case-insensitive match of a literal label at the head of the input. -/
def matchLabelCI : List Char → List Char → Option (List Char)
  | [], s => some s
  | _ :: _, [] => none
  | l :: ls, c :: cs => if asciiLower c = asciiLower l then matchLabelCI ls cs else none

/-- Anchored match of `<label>\s*:\s*(\d+(\.\d+)?)` (case-insensitive) at
the head of the input, per the spec's description of the nutrient pattern. -/
def matchNutrientAt (label : List Char) (s : List Char) : Option Decimal :=
  match matchLabelCI label s with
  | none => none
  | some r1 =>
    let r2 := r1.dropWhile isSpaceChar
    match r2 with
    | ':' :: r3 =>
      let r4 := r3.dropWhile isSpaceChar
      let ds := r4.takeWhile isDigitChar
      let r5 := r4.dropWhile isDigitChar
      if ds = [] then none
      else
        match r5 with
        | '.' :: r6 =>
          let fs := r6.takeWhile isDigitChar
          if fs = [] then some ⟨digitsToNat 0 ds, 0⟩
          else some ⟨digitsToNat (digitsToNat 0 ds) fs, fs.length⟩
        | _ => some ⟨digitsToNat 0 ds, 0⟩
    | _ => none

/-- First occurrence search for one nutrient label (leftmost match wins). -/
def findNutrient (label : List Char) : List Char → Option Decimal
  | [] => none
  | c :: rest =>
    match matchNutrientAt label (c :: rest) with
    | some d => some d
    | none => findNutrient label rest

/-- Modelled from the spec: `extract(day_text) -> (NutrientSnapshot,
MissingList)`.  The snapshot records, in first-checked order, each nutrient
whose pattern matched, with its parsed value; the missing list pairs each
unmatched nutrient, in first-checked order, with its fixed suggestion. -/
def extract (day_text : List Char) :
    List (Nutrient × Decimal) × List (Nutrient × List Char) :=
  (nutrientOrder.filterMap
      (fun n => (findNutrient (nutrientName n) day_text).map (fun d => (n, d))),
   (nutrientOrder.filter
      (fun n => findNutrient (nutrientName n) day_text = none)).map
      (fun n => (n, suggestionFor n)))

/-! ### `generate_meal_plan`: exception handling

The network call itself is I/O; what the repository owns is the mapping
from its outcome to the string the user sees.  The outcome of the
`requests.post` / `response.json()` / key-lookup sequence enters the
embedding as an abstract value. -/

/-- Outcome of the meal-plan API call: the extracted content on success, or
the exception raised (`requests.exceptions.RequestException`, `KeyError`
from the missing response key, or any other exception such as malformed
response JSON), with the exception's display text. -/
inductive ApiOutcome where
  | success : List Char → ApiOutcome
  | requestError : List Char → ApiOutcome
  | keyError : List Char → ApiOutcome
  | otherError : List Char → ApiOutcome
deriving DecidableEq

/-- Whether the call failed. -/
def ApiOutcome.isFailure : ApiOutcome → Bool
  | ApiOutcome.success _ => false
  | _ => true

/-- `generate_meal_plan` of `foodlogger.py`: missing key check, then the
three `except` arms mapping each exception to its message string. -/
def generate_meal_plan_fl (api_key : Option (List Char)) (outcome : ApiOutcome) :
    List Char :=
  match api_key with
  | none => "Error: Mistral API key not found. Please set up your API key.".toList
  | some _ =>
    match outcome with
    | ApiOutcome.success content => content
    | ApiOutcome.requestError e => "API Request Error: ".toList ++ e
    | ApiOutcome.keyError e => "API Response Format Error: ".toList ++ e
    | ApiOutcome.otherError e => "Unexpected Error: ".toList ++ e

/-- `generate_meal_plan` of `main.py`: a single `except Exception` arm. -/
def generate_meal_plan_main (outcome : ApiOutcome) : List Char :=
  match outcome with
  | ApiOutcome.success content => content
  | ApiOutcome.requestError e => "Error generating meal plan: ".toList ++ e
  | ApiOutcome.keyError e => "Error generating meal plan: ".toList ++ e
  | ApiOutcome.otherError e => "Error generating meal plan: ".toList ++ e

/-! ### Dictionary lemmas -/

/-- The fold step of `dfold`. -/
def dstep (m : List (List Char × List Char)) (kv : List Char × List Char) :
    List (List Char × List Char) :=
  dictUpdate m kv.1 kv.2

/-- The characters the header group `(DAY\s+\d+[\s:.-]*([A-Za-z]+))` can
consume. -/
def isHeaderChar (c : Char) : Bool :=
  isAsciiLetter c || isSpaceChar c || isDigitChar c || isSepChar c

/-- The concrete input, match and remainder of the C3 witness. -/
def c3s : List Char := "DAY 1: MONDAY food -=*=- rest".toList

/-- The match the foodlogger pattern finds in `c3s`. -/
def c3m : FLMatch :=
  { header := "DAY 1: MONDAY".toList, dayName := "MONDAY".toList,
    content := "food".toList }

/-- The remainder after the C3 witness match. -/
def c3r : List Char := " rest".toList

theorem dfold_eq_foldl (kvs : List (List Char × List Char)) :
    dfold kvs = kvs.foldl dstep [] := rfl

theorem dictUpdate_of_not_mem {m : List (List Char × List Char)} {k v : List Char}
    (h : ∀ p ∈ m, p.1 ≠ k) : dictUpdate m k v = m ++ [(k, v)] := by
  have : m.any (fun p => p.1 = k) = false := by
    simp only [List.any_eq_false, decide_eq_true_eq]
    exact h
  simp [dictUpdate, this]

theorem keys_dictUpdate_of_mem {m : List (List Char × List Char)} {k v : List Char}
    (h : k ∈ m.map Prod.fst) :
    (dictUpdate m k v).map Prod.fst = m.map Prod.fst := by
  have hany : m.any (fun p => p.1 = k) = true := by
    simp only [List.any_eq_true, decide_eq_true_eq]
    obtain ⟨p, hp, hpk⟩ := List.mem_map.mp h
    exact ⟨p, hp, hpk⟩
  simp only [dictUpdate, hany, if_true]
  rw [List.map_map]
  apply List.map_congr_left
  intro p _
  by_cases hpk : p.1 = k
  · simp [hpk]
  · simp [hpk]

theorem keys_dictUpdate_of_not_mem {m : List (List Char × List Char)} {k v : List Char}
    (h : ¬ k ∈ m.map Prod.fst) :
    (dictUpdate m k v).map Prod.fst = m.map Prod.fst ++ [k] := by
  have h' : ∀ p ∈ m, p.1 ≠ k := by
    intro p hp hpk
    exact h (List.mem_map.mpr ⟨p, hp, hpk⟩)
  rw [dictUpdate_of_not_mem h', List.map_append]
  rfl

theorem foldl_dstep_nodup :
    ∀ (kvs acc : List (List Char × List Char)),
      ((acc ++ kvs).map Prod.fst).Nodup →
      kvs.foldl dstep acc = acc ++ kvs := by
  intro kvs
  induction kvs with
  | nil => intro acc _; simp
  | cons kv rest ih =>
    intro acc hnd
    have hk : ∀ p ∈ acc, p.1 ≠ kv.1 := by
      intro p hp hpk
      rw [List.map_append] at hnd
      have h1 : p.1 ∈ acc.map Prod.fst := List.mem_map.mpr ⟨p, hp, rfl⟩
      have h2 : kv.1 ∈ (kv :: rest).map Prod.fst := by simp
      have hdisj := (List.nodup_append.mp hnd).2.2
      have := hdisj h1
      rw [hpk] at this
      exact this h2
    have hstep : dstep acc kv = acc ++ [kv] := by
      simpa [dstep] using dictUpdate_of_not_mem hk
    calc (kv :: rest).foldl dstep acc = rest.foldl dstep (dstep acc kv) := rfl
      _ = rest.foldl dstep (acc ++ [kv]) := by rw [hstep]
      _ = (acc ++ [kv]) ++ rest := by
          apply ih
          simpa using hnd
      _ = acc ++ kv :: rest := by simp

theorem dfold_of_keys_nodup {kvs : List (List Char × List Char)}
    (h : (kvs.map Prod.fst).Nodup) : dfold kvs = kvs := by
  have := foldl_dstep_nodup kvs [] (by simpa using h)
  simpa [dfold_eq_foldl] using this

theorem mem_dictUpdate {m : List (List Char × List Char)} {k v : List Char}
    {e : List Char × List Char} (h : e ∈ dictUpdate m k v) :
    e ∈ m ∨ e = (k, v) := by
  by_cases hany : m.any (fun p => p.1 = k) = true
  · simp only [dictUpdate, hany, if_true] at h
    obtain ⟨p, hp, hpe⟩ := List.mem_map.mp h
    by_cases hpk : p.1 = k
    · simp only [hpk, if_true] at hpe
      exact Or.inr hpe.symm
    · simp only [hpk, if_false] at hpe
      exact Or.inl (hpe ▸ hp)
  · simp only [dictUpdate, hany, if_false] at h
    rcases List.mem_append.mp h with h1 | h1
    · exact Or.inl h1
    · exact Or.inr (List.mem_singleton.mp h1)

theorem mem_foldl_dstep :
    ∀ (kvs acc : List (List Char × List Char)) (e : List Char × List Char),
      e ∈ kvs.foldl dstep acc → e ∈ acc ∨ e ∈ kvs := by
  intro kvs
  induction kvs with
  | nil => intro acc e h; exact Or.inl h
  | cons kv rest ih =>
    intro acc e h
    rcases ih (dstep acc kv) e h with h1 | h1
    · rcases mem_dictUpdate h1 with h2 | h2
      · exact Or.inl h2
      · exact Or.inr (by simp [h2])
    · exact Or.inr (List.mem_cons_of_mem _ h1)

theorem mem_dfold {kvs : List (List Char × List Char)} {e : List Char × List Char}
    (h : e ∈ dfold kvs) : e ∈ kvs := by
  rcases mem_foldl_dstep kvs [] e h with h1 | h1
  · cases h1
  · exact h1

theorem length_dictUpdate_ge (m : List (List Char × List Char)) (k v : List Char) :
    m.length ≤ (dictUpdate m k v).length := by
  unfold dictUpdate
  by_cases hany : m.any (fun p => p.1 = k) = true
  · simp [hany]
  · simp [hany]

theorem length_foldl_dstep_ge :
    ∀ (kvs acc : List (List Char × List Char)),
      acc.length ≤ (kvs.foldl dstep acc).length := by
  intro kvs
  induction kvs with
  | nil => intro acc; simp
  | cons kv rest ih =>
    intro acc
    calc acc.length ≤ (dstep acc kv).length := length_dictUpdate_ge acc kv.1 kv.2
      _ ≤ ((kv :: rest).foldl dstep acc).length := ih (dstep acc kv)

theorem dfold_ne_nil {kvs : List (List Char × List Char)} (h : kvs ≠ []) :
    dfold kvs ≠ [] := by
  match kvs, h with
  | kv :: rest, _ =>
    have h1 : (dstep [] kv).length ≤ ((kv :: rest).foldl dstep []).length :=
      length_foldl_dstep_ge rest (dstep [] kv)
    have h2 : dstep [] kv = [(kv.1, kv.2)] := by
      simp [dstep, dictUpdate]
    rw [dfold_eq_foldl]
    intro hc
    rw [List.foldl_cons] at h1 hc
    rw [hc] at h1
    rw [h2] at h1
    simp at h1

theorem find?_mapReplace_self {k v : List Char} :
    ∀ m : List (List Char × List Char), m.any (fun p => p.1 = k) = true →
      (m.map (fun p => if p.1 = k then (k, v) else p)).find?
        (fun p => decide (p.1 = k)) = some (k, v) := by
  intro m
  induction m with
  | nil => intro h; simp at h
  | cons p rest ih =>
    intro h
    by_cases hpk : p.1 = k
    · simp [List.find?_cons, hpk]
    · have hrest : rest.any (fun q => q.1 = k) = true := by
        simp only [List.any_cons, hpk] at h
        simpa using h
      have hd : decide (p.1 = k) = false := by
        simp [hpk]
      simp only [List.map_cons, hpk, if_false, List.find?_cons, hd]
      exact ih hrest

theorem find?_mapReplace_other {k k2 v : List Char} (hne : k ≠ k2) :
    ∀ m : List (List Char × List Char),
      (m.map (fun p => if p.1 = k2 then (k2, v) else p)).find?
        (fun p => decide (p.1 = k)) = m.find? (fun p => decide (p.1 = k)) := by
  intro m
  induction m with
  | nil => simp
  | cons p rest ih =>
    by_cases hpk2 : p.1 = k2
    · have h1 : ¬ p.1 = k := by rw [hpk2]; exact fun h => hne h.symm
      have h2 : ¬ (k2 = k) := fun h => hne h.symm
      have hd1 : decide ((k2, v).1 = k) = false := by simp [h2]
      have hd2 : decide (p.1 = k) = false := by simp [h1]
      simp only [List.map_cons, hpk2, if_true, List.find?_cons, hd1, hd2]
      exact ih
    · simp only [List.map_cons, hpk2, if_false, List.find?_cons]
      by_cases hpk : p.1 = k
      · simp [hpk]
      · have hd : decide (p.1 = k) = false := by simp [hpk]
        simp only [hd]
        exact ih

theorem lookupKey_dictUpdate_self (m : List (List Char × List Char)) (k v : List Char) :
    lookupKey (dictUpdate m k v) k = some v := by
  unfold dictUpdate lookupKey
  by_cases hany : m.any (fun p => p.1 = k) = true
  · simp only [hany, if_true]
    rw [find?_mapReplace_self m hany]
    rfl
  · rw [if_neg hany]
    have hnone : m.find? (fun p => decide (p.1 = k)) = none := by
      rw [List.find?_eq_none]
      intro p hp
      simp only [decide_eq_true_eq]
      intro hpk
      rw [Bool.not_eq_true, List.any_eq_false] at hany
      exact hany p hp (by simpa using hpk)
    rw [List.find?_append, hnone]
    simp [List.find?_cons]

theorem lookupKey_dictUpdate_other {k k2 : List Char} (hne : k ≠ k2)
    (m : List (List Char × List Char)) (v : List Char) :
    lookupKey (dictUpdate m k2 v) k = lookupKey m k := by
  unfold dictUpdate lookupKey
  by_cases hany : m.any (fun p => p.1 = k2) = true
  · simp only [hany, if_true]
    rw [find?_mapReplace_other hne m]
  · rw [if_neg hany, List.find?_append]
    have h2 : [(k2, v)].find? (fun p => decide (p.1 = k)) = none := by
      have hd : decide ((k2, v).1 = k) = false := by
        simp only [decide_eq_false_iff_not]
        exact fun h => hne (Eq.symm h)
      simp [List.find?_cons, hd]
    rw [h2]
    cases m.find? (fun p => decide (p.1 = k)) <;> simp

theorem lookupKey_foldl_of_absent {k : List Char} :
    ∀ (kvs acc : List (List Char × List Char)), (∀ p ∈ kvs, p.1 ≠ k) →
      lookupKey (kvs.foldl dstep acc) k = lookupKey acc k := by
  intro kvs
  induction kvs with
  | nil => intro acc _; rfl
  | cons kv rest ih =>
    intro acc h
    have hk : kv.1 ≠ k := h kv (by simp)
    calc lookupKey ((kv :: rest).foldl dstep acc) k
        = lookupKey (rest.foldl dstep (dstep acc kv)) k := rfl
      _ = lookupKey (dstep acc kv) k := ih _ (fun p hp => h p (List.mem_cons_of_mem _ hp))
      _ = lookupKey acc k := lookupKey_dictUpdate_other (fun he => hk he.symm) acc kv.2

theorem filter_eq_nil_of_keys_ne {k : List Char} {kvs : List (List Char × List Char)}
    (h : ∀ p ∈ kvs, p.1 ≠ k) : kvs.filter (fun p => p.1 = k) = [] := by
  rw [List.filter_eq_nil_iff]
  intro p hp
  simp only [decide_eq_true_eq]
  exact h p hp

theorem lookupKey_foldl_of_present {k : List Char} :
    ∀ (kvs acc : List (List Char × List Char)),
      kvs.filter (fun p => p.1 = k) ≠ [] →
      lookupKey (kvs.foldl dstep acc) k =
        ((kvs.filter (fun p => p.1 = k)).getLast?).map Prod.snd := by
  intro kvs
  induction kvs with
  | nil => intro acc h; simp at h
  | cons kv rest ih =>
    intro acc hne
    by_cases hrest : rest.filter (fun p => p.1 = k) = []
    · -- the head is the only (hence the last) entry with key k
      have habsent : ∀ p ∈ rest, p.1 ≠ k := by
        intro p hp hpk
        have : p ∈ rest.filter (fun q => q.1 = k) :=
          List.mem_filter.mpr ⟨hp, by simpa using hpk⟩
        rw [hrest] at this
        cases this
      by_cases hk : kv.1 = k
      · have hfil : (kv :: rest).filter (fun p => p.1 = k) = [kv] := by
          rw [List.filter_cons]
          simp [hk, hrest]
        rw [hfil]
        have h1 : lookupKey ((kv :: rest).foldl dstep acc) k =
            lookupKey (dstep acc kv) k := lookupKey_foldl_of_absent rest (dstep acc kv) habsent
        rw [h1]
        have : dstep acc kv = dictUpdate acc k kv.2 := by rw [dstep, hk]
        rw [this, lookupKey_dictUpdate_self]
        rfl
      · have hfil : (kv :: rest).filter (fun p => p.1 = k) = rest.filter (fun p => p.1 = k) := by
          rw [List.filter_cons]
          simp [hk]
        rw [hfil] at hne
        exact absurd hrest hne
    · -- a later entry with key k exists: it wins, whatever the head does
      have hfil : (kv :: rest).filter (fun p => p.1 = k) =
          (if kv.1 = k then kv :: rest.filter (fun p => p.1 = k)
           else rest.filter (fun p => p.1 = k)) := by
        rw [List.filter_cons]
        by_cases hk : kv.1 = k <;> simp [hk]
      have hlast : ((kv :: rest).filter (fun p => p.1 = k)).getLast? =
          (rest.filter (fun p => p.1 = k)).getLast? := by
        rw [hfil]
        by_cases hk : kv.1 = k
        · rw [if_pos hk]
          rcases List.exists_cons_of_ne_nil hrest with ⟨q, qs, hr⟩
          rw [hr, List.getLast?_cons_cons]
        · rw [if_neg hk]
      rw [hlast, ← ih (dstep acc kv) hrest]
      rfl

theorem keys_foldl_nodup :
    ∀ (kvs acc : List (List Char × List Char)),
      (acc.map Prod.fst).Nodup → ((kvs.foldl dstep acc).map Prod.fst).Nodup := by
  intro kvs
  induction kvs with
  | nil => intro acc h; exact h
  | cons kv rest ih =>
    intro acc h
    apply ih
    by_cases hk : kv.1 ∈ acc.map Prod.fst
    · rw [dstep, keys_dictUpdate_of_mem hk]
      exact h
    · rw [dstep, keys_dictUpdate_of_not_mem hk]
      apply ((List.perm_append_singleton kv.1 (acc.map Prod.fst)).nodup_iff).mpr
      exact List.nodup_cons.mpr ⟨hk, h⟩

theorem mem_keys_foldl {k : List Char} :
    ∀ (kvs acc : List (List Char × List Char)),
      (k ∈ (kvs.foldl dstep acc).map Prod.fst ↔
        k ∈ acc.map Prod.fst ∨ k ∈ kvs.map Prod.fst) := by
  intro kvs
  induction kvs with
  | nil => intro acc; simp
  | cons kv rest ih =>
    intro acc
    have hstep : k ∈ (dstep acc kv).map Prod.fst ↔
        k ∈ acc.map Prod.fst ∨ k = kv.1 := by
      by_cases hk : kv.1 ∈ acc.map Prod.fst
      · rw [dstep, keys_dictUpdate_of_mem hk]
        constructor
        · exact Or.inl
        · rintro (h | h)
          · exact h
          · rw [h]; exact hk
      · rw [dstep, keys_dictUpdate_of_not_mem hk]
        simp [List.mem_append, eq_comm]
    calc k ∈ ((kv :: rest).foldl dstep acc).map Prod.fst
        ↔ k ∈ (rest.foldl dstep (dstep acc kv)).map Prod.fst := Iff.rfl
      _ ↔ k ∈ (dstep acc kv).map Prod.fst ∨ k ∈ rest.map Prod.fst := ih _
      _ ↔ (k ∈ acc.map Prod.fst ∨ k = kv.1) ∨ k ∈ rest.map Prod.fst := by rw [hstep]
      _ ↔ k ∈ acc.map Prod.fst ∨ k ∈ (kv :: rest).map Prod.fst := by
          simp [or_assoc]

theorem countKey_eq_one_of_nodup {m : List (List Char × List Char)} {k : List Char}
    (hnd : (m.map Prod.fst).Nodup) (hmem : k ∈ m.map Prod.fst) : countKey m k = 1 := by
  induction m with
  | nil => simp at hmem
  | cons p rest ih =>
    simp only [List.map_cons, List.nodup_cons] at hnd
    by_cases hpk : p.1 = k
    · have hrest : ∀ q ∈ rest, q.1 ≠ k := by
        intro q hq hqk
        exact hnd.1 (by rw [hpk, ← hqk]; exact List.mem_map.mpr ⟨q, hq, rfl⟩)
      unfold countKey
      rw [List.filter_cons, if_pos (by simpa using hpk), filter_eq_nil_of_keys_ne hrest]
      rfl
    · have hmem' : k ∈ rest.map Prod.fst := by
        rcases List.mem_cons.mp hmem with h | h
        · exact absurd h.symm hpk
        · exact h
      unfold countKey
      rw [List.filter_cons, if_neg (by simpa using hpk)]
      exact ih hnd.2 hmem'

theorem countKey_dfold_eq_one {kvs : List (List Char × List Char)} {k : List Char}
    (hmem : k ∈ kvs.map Prod.fst) : countKey (dfold kvs) k = 1 := by
  apply countKey_eq_one_of_nodup
  · rw [dfold_eq_foldl]
    exact keys_foldl_nodup kvs [] (by simp)
  · rw [dfold_eq_foldl]
    exact (mem_keys_foldl kvs []).mpr (Or.inr hmem)


/-! ### Matcher inversion lemmas -/

theorem reqClass_spec {p : Char → Bool} {s tk r : List Char}
    (h : reqClass p s = some (tk, r)) :
    s = tk ++ r ∧ tk ≠ [] ∧ ∀ c ∈ tk, p c := by
  unfold reqClass at h
  by_cases he : s.takeWhile p = []
  · rw [if_pos he] at h; cases h
  · rw [if_neg he] at h
    cases h
    exact ⟨(List.takeWhile_append_dropWhile p s).symm, he,
      fun c hc => List.mem_takeWhile_imp hc⟩

theorem optClass_spec (p : Char → Bool) (s : List Char) :
    s = (optClass p s).1 ++ (optClass p s).2 ∧ ∀ c ∈ (optClass p s).1, p c :=
  ⟨(List.takeWhile_append_dropWhile p s).symm,
   fun c hc => List.mem_takeWhile_imp hc⟩

theorem reqChar_spec {c : Char} {s r : List Char} (h : reqChar c s = some r) :
    s = c :: r := by
  cases s with
  | nil => cases h
  | cons x rest =>
    have h' : (if x = c then some rest else none) = some r := h
    by_cases hx : x = c
    · rw [if_pos hx] at h'; cases h'; rw [hx]
    · rw [if_neg hx] at h'; cases h' 

theorem matchDayCI_spec {s r : List Char} (h : matchDayCI s = some r) :
    ∃ c1 c2 c3, s = c1 :: c2 :: c3 :: r := by
  cases s with
  | nil => cases h
  | cons c1 s1 =>
    cases s1 with
    | nil => cases h
    | cons c2 s2 =>
      cases s2 with
      | nil => cases h
      | cons c3 rest =>
        have h' : (if ((c1 = 'D' || c1 = 'd') && (c2 = 'A' || c2 = 'a') && (c3 = 'Y' || c3 = 'y')) = true
            then some rest else none) = some r := h
        by_cases hc : ((c1 = 'D' || c1 = 'd') && (c2 = 'A' || c2 = 'a') && (c3 = 'Y' || c3 = 'y')) = true
        · rw [if_pos hc] at h'
          cases h'
          exact ⟨c1, c2, c3, rfl⟩
        · rw [if_neg hc] at h'
          cases h' 

theorem matchDayChars_spec {s d r : List Char} (h : matchDayChars s = some (d, r)) :
    s = d ++ r ∧ d.length = 3 ∧ ∀ c ∈ d, isAsciiLetter c := by
  cases s with
  | nil => cases h
  | cons c1 s1 =>
    cases s1 with
    | nil => cases h
    | cons c2 s2 =>
      cases s2 with
      | nil => cases h
      | cons c3 rest =>
        have h' : (if ((c1 = 'D' || c1 = 'd') && (c2 = 'A' || c2 = 'a') && (c3 = 'Y' || c3 = 'y')) = true
            then some ([c1, c2, c3], rest) else none) = some (d, r) := h
        by_cases hc : ((c1 = 'D' || c1 = 'd') && (c2 = 'A' || c2 = 'a') && (c3 = 'Y' || c3 = 'y')) = true
        · rw [if_pos hc] at h'
          cases h' 
          refine ⟨rfl, rfl, ?_⟩
          simp only [Bool.and_eq_true, Bool.or_eq_true, decide_eq_true_eq] at hc
          intro c hcm
          have hone : c = c1 ∨ c = c2 ∨ c = c3 := by
            simpa using hcm
          rcases hone with h1 | h1 | h1
          · subst h1; rcases hc.1.1 with h2 | h2 <;> subst h2 <;> decide
          · subst h1; rcases hc.1.2 with h2 | h2 <;> subst h2 <;> decide
          · subst h1; rcases hc.2 with h2 | h2 <;> subst h2 <;> decide
        · rw [if_neg hc] at h'
          cases h'

theorem matchAtMain_inv {s nm : List Char} {len : Nat}
    (h : matchAtMain s = some (nm, len)) :
    ∃ r1 ws1 r2 ds r3 ws2 r4 r5 ws3 r6 r7,
      matchDayCI s = some r1 ∧
      reqClass isSpaceChar r1 = some (ws1, r2) ∧
      reqClass isDigitChar r2 = some (ds, r3) ∧
      optClass isSpaceChar r3 = (ws2, r4) ∧
      reqChar ':' r4 = some r5 ∧
      optClass isSpaceChar r5 = (ws3, r6) ∧
      reqClass isAsciiLetter r6 = some (nm, r7) ∧
      len = 3 + ws1.length + ds.length + ws2.length + 1 + ws3.length + nm.length := by
  unfold matchAtMain at h
  simp only [bind, Option.bind_eq_some] at h
  obtain ⟨r1, h1, h⟩ := h
  obtain ⟨⟨ws1, r2⟩, h2, h⟩ := h
  obtain ⟨⟨ds, r3⟩, h3, h⟩ := h
  obtain ⟨r5, h4, h⟩ := h
  obtain ⟨⟨nm', r7⟩, h5, h⟩ := h
  cases h
  exact ⟨r1, ws1, r2, ds, r3, _, _, r5, _, _, r7, h1, h2, h3, rfl, h4, rfl, h5, rfl⟩

theorem matchAtMain_len {s nm : List Char} {len : Nat}
    (h : matchAtMain s = some (nm, len)) : 1 ≤ len ∧ len ≤ s.length := by
  obtain ⟨r1, ws1, r2, ds, r3, ws2, r4, r5, ws3, r6, r7, h1, h2, h3, h4, h5, h6, h7, hlen⟩ :=
    matchAtMain_inv h
  obtain ⟨c1, c2, c3, hs⟩ := matchDayCI_spec h1
  obtain ⟨e2, _, _⟩ := reqClass_spec h2
  obtain ⟨e3, _, _⟩ := reqClass_spec h3
  have e4 : r3 = ws2 ++ r4 := by
    have := (optClass_spec isSpaceChar r3).1
    rw [h4] at this
    exact this
  have e5 : r4 = ':' :: r5 := reqChar_spec h5
  have e6 : r5 = ws3 ++ r6 := by
    have := (optClass_spec isSpaceChar r5).1
    rw [h6] at this
    exact this
  obtain ⟨e7, _, _⟩ := reqClass_spec h7
  have hslen : s.length = 3 + r1.length := by rw [hs]; simp; omega
  have h2l : r1.length = ws1.length + r2.length := by rw [e2]; simp
  have h3l : r2.length = ds.length + r3.length := by rw [e3]; simp
  have h4l : r3.length = ws2.length + r4.length := by rw [e4]; simp
  have h5l : r4.length = 1 + r5.length := by rw [e5]; simp; omega
  have h6l : r5.length = ws3.length + r6.length := by rw [e6]; simp
  have h7l : r6.length = nm.length + r7.length := by rw [e7]; simp
  omega

theorem scanMainAux_bounds :
    ∀ (f : Nat) (s : List Char) (pos : Nat) (pr : Nat × List Char),
      pr ∈ scanMainAux f s pos → pos ≤ pr.1 ∧ pr.1 < pos + s.length := by
  intro f
  induction f with
  | zero => intro s pos pr h; cases h
  | succ f ih =>
    intro s pos pr h
    cases s with
    | nil => cases h
    | cons c rest =>
      unfold scanMainAux at h
      cases hm : matchAtMain (c :: rest) with
      | some v =>
        obtain ⟨nm, len⟩ := v
        rw [hm] at h
        rcases List.mem_cons.mp h with h1 | h1
        · rw [h1]
          simp
        · obtain ⟨hlo, hhi⟩ := ih _ _ _ h1
          obtain ⟨hl1, hl2⟩ := matchAtMain_len hm
          constructor
          · omega
          · have hdl : ((c :: rest).drop len).length = (c :: rest).length - len := by
              simp
            omega
      | none =>
        rw [hm] at h
        obtain ⟨hlo, hhi⟩ := ih _ _ _ h
        constructor
        · omega
        · simp only [List.length_cons]
          omega

theorem drop_take_append_drop (t : List Char) {p q : Nat} (hpq : p ≤ q) :
    (t.drop p).take (q - p) ++ t.drop q = t.drop p := by
  have h1 : (t.drop p).take (q - p) ++ (t.drop p).drop (q - p) = t.drop p :=
    List.take_append_drop (q - p) (t.drop p)
  have h2 : (t.drop p).drop (q - p) = t.drop q := by
    rw [List.drop_drop]
    congr 1
    omega
  rw [h2] at h1
  exact h1

theorem scanMainAux_tile (t : List Char) :
    ∀ (f : Nat) (s : List Char) (pos : Nat), s.length ≤ f → s = t.drop pos →
      pos ≤ t.length →
      (rawSegsMain t (scanMainAux f s pos)).flatten =
        (match (scanMainAux f s pos).head? with
          | none => []
          | some (p, _) => t.drop p) := by
  intro f
  induction f with
  | zero =>
    intro s pos hf _ _
    have hnil : s = [] := List.length_eq_zero.mp (Nat.le_zero.mp hf)
    subst hnil
    rfl
  | succ f ih =>
    intro s pos hf hs hpos
    cases s with
    | nil => rfl
    | cons c rest =>
      cases hm : matchAtMain (c :: rest) with
      | some v =>
        obtain ⟨nm, len⟩ := v
        obtain ⟨hl1, hl2⟩ := matchAtMain_len hm
        have hscan : scanMainAux (f + 1) (c :: rest) pos =
            (pos, nm) :: scanMainAux f ((c :: rest).drop len) (pos + len) := by
          simp only [scanMainAux, hm]
        rw [hscan]
        have hdrop : (c :: rest).drop len = t.drop (pos + len) := by
          rw [hs, List.drop_drop]
        have hlen : ((c :: rest).drop len).length ≤ f := by
          have : (c :: rest).length ≤ f + 1 := hf
          simp only [List.length_drop]
          omega
        have hpos' : pos + len ≤ t.length := by
          have h1 : (c :: rest).length = t.length - pos := by
            rw [hs, List.length_drop]
          omega
        have htail := ih ((c :: rest).drop len) (pos + len) hlen hdrop hpos'
        cases htl : scanMainAux f ((c :: rest).drop len) (pos + len) with
        | nil =>
          show (t.drop pos).take (t.length - pos) ++ [] = t.drop pos
          rw [List.append_nil]
          apply List.take_of_length_le
          rw [List.length_drop]
        | cons pr2 tl2 =>
          obtain ⟨q, nm2⟩ := pr2
          have hq : pos + len ≤ q ∧ q < pos + len + ((c :: rest).drop len).length := by
            have hb := scanMainAux_bounds f ((c :: rest).drop len) (pos + len) (q, nm2)
              (by rw [htl]; exact List.mem_cons_self _ _)
            exact hb
          have htail' : (rawSegsMain t ((q, nm2) :: tl2)).flatten = t.drop q := by
            rw [htl] at htail
            exact htail
          show (t.drop pos).take (q - pos) ++ (rawSegsMain t ((q, nm2) :: tl2)).flatten =
            t.drop pos
          rw [htail']
          exact drop_take_append_drop t (by omega)
      | none =>
        have hscan : scanMainAux (f + 1) (c :: rest) pos = scanMainAux f rest (pos + 1) := by
          simp only [scanMainAux, hm]
        rw [hscan]
        have hrest : rest = t.drop (pos + 1) := by
          have h1 : (c :: rest).drop 1 = t.drop (pos + 1) := by
            rw [hs, List.drop_drop]
          simpa using h1
        have hlen : rest.length ≤ f := by
          have : (c :: rest).length ≤ f + 1 := hf
          simp only [List.length_cons] at this
          omega
        have hpos' : pos + 1 ≤ t.length := by
          have h1 : (c :: rest).length = t.length - pos := by
            rw [hs, List.length_drop]
          simp only [List.length_cons] at h1
          omega
        exact ih rest (pos + 1) hlen hrest hpos'

theorem segmentsMain_keys (t : List Char) :
    ∀ ms : List (Nat × List Char),
      (segmentsMain t ms).map Prod.fst = ms.map (fun m => pyCapitalize m.2) := by
  intro ms
  induction ms with
  | nil => rfl
  | cons pr rest ih =>
    obtain ⟨p, nm⟩ := pr
    cases rest with
    | nil => rfl
    | cons pr2 rest2 =>
      have hstep : (segmentsMain t ((p, nm) :: pr2 :: rest2)).map Prod.fst =
          pyCapitalize nm :: (segmentsMain t (pr2 :: rest2)).map Prod.fst := rfl
      rw [hstep, ih]
      rfl

theorem segmentsMain_length (t : List Char) :
    ∀ ms : List (Nat × List Char), (segmentsMain t ms).length = ms.length := by
  intro ms
  have h := segmentsMain_keys t ms
  have h1 := congrArg List.length h
  simpa using h1

theorem segmentsMain_vals (t : List Char) :
    ∀ ms : List (Nat × List Char),
      (segmentsMain t ms).map Prod.snd = (rawSegsMain t ms).map pyStrip := by
  intro ms
  induction ms with
  | nil => rfl
  | cons pr rest ih =>
    obtain ⟨p, nm⟩ := pr
    cases rest with
    | nil => rfl
    | cons pr2 rest2 =>
      have hstep1 : (segmentsMain t ((p, nm) :: pr2 :: rest2)).map Prod.snd =
          pyStrip ((t.drop p).take (pr2.1 - p)) ::
            (segmentsMain t (pr2 :: rest2)).map Prod.snd := rfl
      have hstep2 : (rawSegsMain t ((p, nm) :: pr2 :: rest2)).map pyStrip =
          pyStrip ((t.drop p).take (pr2.1 - p)) ::
            (rawSegsMain t (pr2 :: rest2)).map pyStrip := rfl
      rw [hstep1, hstep2, ih]

/-- C1 counterexample: the input has two day headers, `DAY 1: MONDAY` and
`DAY 2: MONDAY` (distinct headers, increasing numbers), but the returned
map has one entry, not two: the claim that `k` distinct headers always
yield `k` entries fails when two headers carry the same day name. -/
theorem parse_main_duplicate_name_counterexample :
    (scanMain "DAY 1: MONDAY\na\nDAY 2: MONDAY\nb".toList).length = 2 ∧
    (parse_meal_plan_by_day_main "DAY 1: MONDAY\na\nDAY 2: MONDAY\nb".toList).length = 1 := by
  constructor
  · decide
  · decide

/-- C1 (amended): for an input whose recognized day headers carry pairwise
distinct capitalized names, `parse_meal_plan_by_day` (header-only variant of
`main.py`) returns exactly one entry per header, keyed by the capitalized
name in first-seen order; each stored value is the whitespace-stripped slice
from its header start to the next header start (or end of text); and the
raw (unstripped) slices are non-overlapping and concatenate to the input
text from the first header onward (the text before the first header, and
the whitespace trimmed by `strip()`, are dropped, not reconstructed). -/
theorem parse_main_distinct_headers (t : List Char) (p0 : Nat) (n0 : List Char)
    (ms' : List (Nat × List Char))
    (h0 : scanMain t = (p0, n0) :: ms')
    (hnd : ((scanMain t).map (fun m => pyCapitalize m.2)).Nodup) :
    parse_meal_plan_by_day_main t = segmentsMain t (scanMain t) ∧
    (parse_meal_plan_by_day_main t).length = (scanMain t).length ∧
    (parse_meal_plan_by_day_main t).map Prod.fst =
      (scanMain t).map (fun m => pyCapitalize m.2) ∧
    (parse_meal_plan_by_day_main t).map Prod.snd =
      (rawSegsMain t (scanMain t)).map pyStrip ∧
    (rawSegsMain t (scanMain t)).flatten = t.drop p0 := by
  have hsegnd : ((segmentsMain t (scanMain t)).map Prod.fst).Nodup := by
    rw [segmentsMain_keys]
    exact hnd
  have hfold : dfold (segmentsMain t (scanMain t)) = segmentsMain t (scanMain t) :=
    dfold_of_keys_nodup hsegnd
  have hne : segmentsMain t (scanMain t) ≠ [] := by
    intro hc
    have := segmentsMain_length t (scanMain t)
    rw [hc, h0] at this
    simp at this
  have hparse : parse_meal_plan_by_day_main t = segmentsMain t (scanMain t) := by
    unfold parse_meal_plan_by_day_main
    rw [hfold]
    rw [if_neg (by simpa [List.isEmpty_iff] using hne)]
  have htile : (rawSegsMain t (scanMain t)).flatten = t.drop p0 := by
    have h := scanMainAux_tile t t.length t 0 (Nat.le_refl _) (List.drop_zero t).symm
      (Nat.zero_le _)
    have hsc : scanMainAux t.length t 0 = (p0, n0) :: ms' := h0
    rw [hsc] at h
    rw [show scanMain t = (p0, n0) :: ms' from h0]
    exact h
  exact ⟨hparse, by rw [hparse, segmentsMain_length],
    by rw [hparse, segmentsMain_keys], by rw [hparse, segmentsMain_vals], htile⟩

/-- C1 witness: a two-day input with distinct names, at which the amended
claim's hypotheses hold and its conclusions evaluate. -/
theorem parse_main_distinct_headers_witness :
    scanMain "DAY 1: MONDAY\nfoo\nDAY 2: TUESDAY\nbar".toList =
      (0, "MONDAY".toList) :: [(18, "TUESDAY".toList)] ∧
    (parse_meal_plan_by_day_main "DAY 1: MONDAY\nfoo\nDAY 2: TUESDAY\nbar".toList =
      segmentsMain "DAY 1: MONDAY\nfoo\nDAY 2: TUESDAY\nbar".toList
        (scanMain "DAY 1: MONDAY\nfoo\nDAY 2: TUESDAY\nbar".toList) ∧
    (parse_meal_plan_by_day_main "DAY 1: MONDAY\nfoo\nDAY 2: TUESDAY\nbar".toList).length =
      (scanMain "DAY 1: MONDAY\nfoo\nDAY 2: TUESDAY\nbar".toList).length ∧
    (parse_meal_plan_by_day_main "DAY 1: MONDAY\nfoo\nDAY 2: TUESDAY\nbar".toList).map Prod.fst =
      (scanMain "DAY 1: MONDAY\nfoo\nDAY 2: TUESDAY\nbar".toList).map
        (fun m => pyCapitalize m.2) ∧
    (parse_meal_plan_by_day_main "DAY 1: MONDAY\nfoo\nDAY 2: TUESDAY\nbar".toList).map Prod.snd =
      (rawSegsMain "DAY 1: MONDAY\nfoo\nDAY 2: TUESDAY\nbar".toList
        (scanMain "DAY 1: MONDAY\nfoo\nDAY 2: TUESDAY\nbar".toList)).map pyStrip ∧
    (rawSegsMain "DAY 1: MONDAY\nfoo\nDAY 2: TUESDAY\nbar".toList
      (scanMain "DAY 1: MONDAY\nfoo\nDAY 2: TUESDAY\nbar".toList)).flatten =
      "DAY 1: MONDAY\nfoo\nDAY 2: TUESDAY\nbar".toList.drop 0) :=
  ⟨by decide,
   parse_main_distinct_headers _ 0 ("MONDAY".toList) [(18, "TUESDAY".toList)]
     (by decide) (by decide)⟩

/-- C2: when the day-header pattern has zero matches, both variants of
`parse_meal_plan_by_day` return exactly the single synthetic entry
`Full Plan` mapped to the whole, unmodified input. -/
theorem parse_zero_matches_full_plan (t : List Char) :
    (scanMain t = [] → parse_meal_plan_by_day_main t = [("Full Plan".toList, t)]) ∧
    (scanFL t = [] → parse_meal_plan_by_day_fl t = [("Full Plan".toList, t)]) := by
  constructor
  · intro h
    unfold parse_meal_plan_by_day_main
    rw [h]
    rfl
  · intro h
    unfold parse_meal_plan_by_day_fl entriesFL
    rw [h]
    rfl

/-- C2 witness: an input with no day headers at all. -/
theorem parse_zero_matches_full_plan_witness :
    scanMain "hello world".toList = [] ∧ scanFL "hello world".toList = [] ∧
    parse_meal_plan_by_day_main "hello world".toList =
      [("Full Plan".toList, "hello world".toList)] ∧
    parse_meal_plan_by_day_fl "hello world".toList =
      [("Full Plan".toList, "hello world".toList)] :=
  ⟨by decide, by decide,
   (parse_zero_matches_full_plan _).1 (by decide),
   (parse_zero_matches_full_plan _).2 (by decide)⟩

theorem dup_overwrite_core (kvs : List (List Char × List Char)) (k : List Char)
    (hdup : 2 ≤ countKey kvs k) :
    kvs ≠ [] ∧
    countKey (dfold kvs) k = 1 ∧
    lookupKey (dfold kvs) k = (kvs.filter (fun p => p.1 = k)).getLast?.map Prod.snd := by
  have hfil : kvs.filter (fun p => p.1 = k) ≠ [] := by
    intro hc
    unfold countKey at hdup
    rw [hc] at hdup
    simp at hdup
  have hmem : k ∈ kvs.map Prod.fst := by
    rcases List.exists_cons_of_ne_nil hfil with ⟨q, qs, hq⟩
    have hqmem : q ∈ kvs.filter (fun p => p.1 = k) := by rw [hq]; simp
    have := List.mem_filter.mp hqmem
    exact List.mem_map.mpr ⟨q, this.1, by simpa using this.2⟩
  have hne : kvs ≠ [] := by
    intro hc
    rw [hc] at hfil
    simp at hfil
  refine ⟨hne, countKey_dfold_eq_one hmem, ?_⟩
  rw [dfold_eq_foldl]
  exact lookupKey_foldl_of_present kvs [] hfil

/-- C8: for both parser variants, when the same capitalized day label is
produced by more than one header match, the returned map holds a single
entry for that label, and its value is the value of the last such match
(later occurrences overwrite earlier ones): the stripped slice for the
`main.py` parser, the `header\ncontent` string for the delimiter-aware
`foodlogger.py` parser. -/
theorem parse_duplicate_overwrite (t : List Char) (k : List Char) :
    (2 ≤ countKey (segmentsMain t (scanMain t)) k →
      countKey (parse_meal_plan_by_day_main t) k = 1 ∧
      lookupKey (parse_meal_plan_by_day_main t) k =
        ((segmentsMain t (scanMain t)).filter (fun p => p.1 = k)).getLast?.map Prod.snd) ∧
    (2 ≤ countKey (entriesFL t) k →
      countKey (parse_meal_plan_by_day_fl t) k = 1 ∧
      lookupKey (parse_meal_plan_by_day_fl t) k =
        ((entriesFL t).filter (fun p => p.1 = k)).getLast?.map Prod.snd) := by
  constructor
  · intro hdup
    obtain ⟨hne, h1, h2⟩ := dup_overwrite_core _ k hdup
    have hparse : parse_meal_plan_by_day_main t = dfold (segmentsMain t (scanMain t)) := by
      unfold parse_meal_plan_by_day_main
      rw [if_neg (by simpa [List.isEmpty_iff] using dfold_ne_nil hne)]
    rw [hparse]
    exact ⟨h1, h2⟩
  · intro hdup
    obtain ⟨hne, h1, h2⟩ := dup_overwrite_core _ k hdup
    have hparse : parse_meal_plan_by_day_fl t = dfold (entriesFL t) := by
      unfold parse_meal_plan_by_day_fl
      rw [if_neg (by simpa [List.isEmpty_iff] using dfold_ne_nil hne)]
    rw [hparse]
    exact ⟨h1, h2⟩

/-- C8 witness: duplicate MONDAY headers in each variant; both parses keep
a single Monday entry holding the second (last) value. -/
theorem parse_duplicate_overwrite_witness :
    2 ≤ countKey
      (segmentsMain "DAY 1: MONDAY\na\nDAY 2: MONDAY\nb".toList
        (scanMain "DAY 1: MONDAY\na\nDAY 2: MONDAY\nb".toList)) "Monday".toList ∧
    2 ≤ countKey (entriesFL "DAY 1: MONDAY\na -=*=- DAY 2: MONDAY\nb -=*=-".toList)
      "Monday".toList ∧
    (countKey (parse_meal_plan_by_day_main "DAY 1: MONDAY\na\nDAY 2: MONDAY\nb".toList)
        "Monday".toList = 1 ∧
     lookupKey (parse_meal_plan_by_day_main "DAY 1: MONDAY\na\nDAY 2: MONDAY\nb".toList)
        "Monday".toList =
       ((segmentsMain "DAY 1: MONDAY\na\nDAY 2: MONDAY\nb".toList
          (scanMain "DAY 1: MONDAY\na\nDAY 2: MONDAY\nb".toList)).filter
            (fun p => p.1 = "Monday".toList)).getLast?.map Prod.snd) ∧
    (countKey (parse_meal_plan_by_day_fl
        "DAY 1: MONDAY\na -=*=- DAY 2: MONDAY\nb -=*=-".toList) "Monday".toList = 1 ∧
     lookupKey (parse_meal_plan_by_day_fl
        "DAY 1: MONDAY\na -=*=- DAY 2: MONDAY\nb -=*=-".toList) "Monday".toList =
       ((entriesFL "DAY 1: MONDAY\na -=*=- DAY 2: MONDAY\nb -=*=-".toList).filter
          (fun p => p.1 = "Monday".toList)).getLast?.map Prod.snd) :=
  ⟨by decide, by decide,
   (parse_duplicate_overwrite ("DAY 1: MONDAY\na\nDAY 2: MONDAY\nb".toList)
     ("Monday".toList)).1 (by decide),
   (parse_duplicate_overwrite ("DAY 1: MONDAY\na -=*=- DAY 2: MONDAY\nb -=*=-".toList)
     ("Monday".toList)).2 (by decide)⟩

/-! ### Lazy-match lemmas for the foodlogger pattern -/

theorem matchDelim_spec {s r : List Char} (h : matchDelim s = some r) :
    ∃ w, (∀ c ∈ w, isSpaceChar c) ∧ s = w ++ DELIM ++ r := by
  have h' : (if DELIM.isPrefixOf (s.dropWhile isSpaceChar)
      then some ((s.dropWhile isSpaceChar).drop 5) else none) = some r := h
  by_cases hp : DELIM.isPrefixOf (s.dropWhile isSpaceChar) = true
  · rw [if_pos hp] at h'
    cases h'
    have hpre : DELIM <+: s.dropWhile isSpaceChar := by
      rw [← List.isPrefixOf_iff_prefix]
      exact hp
    obtain ⟨u, hu⟩ := hpre
    refine ⟨s.takeWhile isSpaceChar, fun c hc => List.mem_takeWhile_imp hc, ?_⟩
    have hsplit : s = s.takeWhile isSpaceChar ++ s.dropWhile isSpaceChar :=
      (List.takeWhile_append_dropWhile isSpaceChar s).symm
    have hdrop5 : (s.dropWhile isSpaceChar).drop 5 = u := by
      rw [← hu]
      exact List.drop_left' (by rfl)
    calc s = s.takeWhile isSpaceChar ++ s.dropWhile isSpaceChar := hsplit
      _ = s.takeWhile isSpaceChar ++ (DELIM ++ u) := by rw [hu]
      _ = s.takeWhile isSpaceChar ++ DELIM ++ u := by rw [List.append_assoc]
      _ = s.takeWhile isSpaceChar ++ DELIM ++ (s.dropWhile isSpaceChar).drop 5 := by
          rw [hdrop5]
  · rw [if_neg hp] at h'
    cases h'

theorem lazyContent_pre (s : List Char) : (lazyContent s).1 <+: s := by
  induction s with
  | nil => exact List.nil_prefix
  | cons c rest ih =>
    cases hd : matchDelim (c :: rest) with
    | some r =>
      have he : lazyContent (c :: rest) = ([], r) := by
        simp only [lazyContent, hd]
      rw [he]
      exact List.nil_prefix
    | none =>
      by_cases hnl : (c = '\n' && decide (rest = [])) = true
      · have he : lazyContent (c :: rest) = ([], ['\n']) := by
          simp only [lazyContent, hd, hnl]
          rfl
        rw [he]
        exact List.nil_prefix
      · have he : lazyContent (c :: rest) =
            (c :: (lazyContent rest).1, (lazyContent rest).2) := by
          simp only [lazyContent, hd]
          rw [if_neg (by simpa using hnl)]
        rw [he]
        exact List.cons_prefix_cons.mpr ⟨rfl, ih⟩

theorem lazyContent_cases (s : List Char) :
    (∃ w r, (∀ c ∈ w, isSpaceChar c) ∧
        s = (lazyContent s).1 ++ w ++ DELIM ++ r ∧ (lazyContent s).2 = r) ∨
    ((lazyContent s).2 = [] ∧ (lazyContent s).1 = s) ∨
    ((lazyContent s).2 = ['\n'] ∧ s = (lazyContent s).1 ++ ['\n']) := by
  induction s with
  | nil => exact Or.inr (Or.inl ⟨rfl, rfl⟩)
  | cons c rest ih =>
    cases hd : matchDelim (c :: rest) with
    | some r =>
      have he : lazyContent (c :: rest) = ([], r) := by
        simp only [lazyContent, hd]
      obtain ⟨w, hw, hsplit⟩ := matchDelim_spec hd
      left
      refine ⟨w, r, hw, ?_, by rw [he]⟩
      rw [he]
      simpa using hsplit
    | none =>
      by_cases hnl : (c = '\n' && decide (rest = [])) = true
      · have he : lazyContent (c :: rest) = ([], ['\n']) := by
          simp only [lazyContent, hd, hnl]
          rfl
        right; right
        simp only [Bool.and_eq_true, decide_eq_true_eq] at hnl
        obtain ⟨hc, hrest⟩ := hnl
        rw [he, hc, hrest]
        constructor
        · rfl
        · rfl
      · have he : lazyContent (c :: rest) =
            (c :: (lazyContent rest).1, (lazyContent rest).2) := by
          simp only [lazyContent, hd]
          rw [if_neg (by simpa using hnl)]
        rcases ih with ⟨w, r, hw, hsplit, hr⟩ | ⟨h2, h1⟩ | ⟨h2, hsplit⟩
        · left
          refine ⟨w, r, hw, ?_, by rw [he]; exact hr⟩
          rw [he]
          simp only [List.cons_append]
          rw [← hsplit]
        · right; left
          rw [he]
          exact ⟨h2, by rw [h1]⟩
        · right; right
          rw [he]
          refine ⟨h2, ?_⟩
          simp only [List.cons_append]
          rw [← hsplit]

theorem lazyContent_no_delim (s : List Char) : ¬ DELIM <:+: (lazyContent s).1 := by
  induction s with
  | nil =>
    intro h
    have : DELIM = [] := List.infix_nil.mp h
    cases this
  | cons c rest ih =>
    cases hd : matchDelim (c :: rest) with
    | some r =>
      have he : lazyContent (c :: rest) = ([], r) := by
        simp only [lazyContent, hd]
      rw [he]
      intro h
      have : DELIM = [] := List.infix_nil.mp h
      cases this
    | none =>
      by_cases hnl : (c = '\n' && decide (rest = [])) = true
      · have he : lazyContent (c :: rest) = ([], ['\n']) := by
          simp only [lazyContent, hd, hnl]
          rfl
        rw [he]
        intro h
        have : DELIM = [] := List.infix_nil.mp h
        cases this
      · have he : lazyContent (c :: rest) =
            (c :: (lazyContent rest).1, (lazyContent rest).2) := by
          simp only [lazyContent, hd]
          rw [if_neg (by simpa using hnl)]
        rw [he]
        intro h
        rcases List.infix_cons_iff.mp h with hp | hi
        · -- a prefix occurrence would make matchDelim succeed here
          obtain ⟨hc1, htail⟩ := List.cons_prefix_cons.mp hp
          have hpre2 : ['=', '*', '=', '-'] <+: rest :=
            htail.trans (lazyContent_pre rest)
          have hpre3 : DELIM <+: c :: rest := by
            rw [show DELIM = '-' :: ['=', '*', '=', '-'] from rfl]
            exact List.cons_prefix_cons.mpr ⟨hc1.symm ▸ rfl, hpre2⟩
          have hforce : matchDelim (c :: rest) = some ((c :: rest).drop 5) := by
            unfold matchDelim
            have hnsp : isSpaceChar c = false := by
              rw [← hc1]
              decide
            rw [List.dropWhile_cons_of_neg (by simp [hnsp])]
            rw [if_pos (List.isPrefixOf_iff_prefix.mpr hpre3)]
          rw [hforce] at hd
          cases hd
        · exact ih hi

theorem pre_through_single {x : Char} {d : List Char} (hx : ¬ x ∈ d) :
    ∀ a b : List Char, d <+: a ++ x :: b → d <+: a := by
  induction d with
  | nil => intro a _ _; exact List.nil_prefix
  | cons c dt ih =>
    intro a b hp
    cases a with
    | nil =>
      obtain ⟨hcx, _⟩ := List.cons_prefix_cons.mp hp
      exact absurd (hcx ▸ List.mem_cons_self c dt) hx
    | cons y a' =>
      obtain ⟨hcy, hdt⟩ := List.cons_prefix_cons.mp hp
      have hxdt : ¬ x ∈ dt := fun hm => hx (List.mem_cons_of_mem _ hm)
      exact List.cons_prefix_cons.mpr ⟨hcy, ih hxdt a' b hdt⟩

theorem sub_around_single {x : Char} {d : List Char} (hx : ¬ x ∈ d) :
    ∀ a b : List Char, d <:+: a ++ x :: b → d <:+: a ∨ d <:+: b := by
  intro a
  induction a with
  | nil =>
    intro b h
    rcases List.infix_cons_iff.mp h with hp | hi
    · cases d with
      | nil => exact Or.inl ⟨[], [], rfl⟩
      | cons c dt =>
        obtain ⟨hcx, _⟩ := List.cons_prefix_cons.mp hp
        exact absurd (hcx ▸ List.mem_cons_self c dt) hx
    · exact Or.inr hi
  | cons y a' ih =>
    intro b h
    rcases List.infix_cons_iff.mp h with hp | hi
    · cases d with
      | nil => exact Or.inl ⟨[], y :: a', rfl⟩
      | cons c dt =>
        obtain ⟨hcy, hdt⟩ := List.cons_prefix_cons.mp hp
        have hxdt : ¬ x ∈ dt := fun hm => hx (List.mem_cons_of_mem _ hm)
        have hdt' : dt <+: a' := pre_through_single hxdt a' b hdt
        exact Or.inl (List.cons_prefix_cons.mpr ⟨hcy, hdt'⟩).isInfix
    · rcases ih b hi with h1 | h1
      · exact Or.inl (List.infix_cons h1)
      · exact Or.inr h1

theorem pyStrip_sub (s : List Char) : pyStrip s <:+: s := by
  unfold pyStrip
  have h1 : ((s.dropWhile isSpaceChar).reverse.dropWhile isSpaceChar).reverse <+:
      s.dropWhile isSpaceChar := by
    refine ⟨((s.dropWhile isSpaceChar).reverse.takeWhile isSpaceChar).reverse, ?_⟩
    rw [← List.reverse_append, List.takeWhile_append_dropWhile, List.reverse_reverse]
  have h2 : s.dropWhile isSpaceChar <:+ s :=
    ⟨s.takeWhile isSpaceChar, List.takeWhile_append_dropWhile isSpaceChar s⟩
  exact h1.isInfix.trans h2.isInfix


theorem matchHeaderFL_inv {s g1 g2 r5 : List Char}
    (h : matchHeaderFL s = some (g1, g2, r5)) :
    ∃ d r1 ws1 r2 ds r3 seps r4,
      matchDayChars s = some (d, r1) ∧
      reqClass isSpaceChar r1 = some (ws1, r2) ∧
      reqClass isDigitChar r2 = some (ds, r3) ∧
      optClass isSepChar r3 = (seps, r4) ∧
      reqClass isAsciiLetter r4 = some (g2, r5) ∧
      g1 = d ++ ws1 ++ ds ++ seps ++ g2 := by
  unfold matchHeaderFL at h
  simp only [bind, Option.bind_eq_some] at h
  obtain ⟨⟨d, r1⟩, h1, h⟩ := h
  obtain ⟨⟨ws1, r2⟩, h2, h⟩ := h
  obtain ⟨⟨ds, r3⟩, h3, h⟩ := h
  obtain ⟨⟨nm, r5'⟩, h4, h⟩ := h
  have h' := Option.some.inj h
  have e1 : d ++ ws1 ++ ds ++ (optClass isSepChar r3).1 ++ nm = g1 :=
    congrArg Prod.fst h'
  have e2 : nm = g2 := congrArg (fun x => x.2.1) h'
  have e3 : r5' = r5 := congrArg (fun x => x.2.2) h'
  subst e2; subst e3
  exact ⟨d, r1, ws1, r2, ds, r3, (optClass isSepChar r3).1, (optClass isSepChar r3).2,
    h1, h2, h3, rfl, h4, e1.symm⟩

theorem matchHeaderFL_spec {s g1 g2 r5 : List Char}
    (h : matchHeaderFL s = some (g1, g2, r5)) :
    s = g1 ++ r5 ∧ g1 ≠ [] ∧ (∀ c ∈ g1, isHeaderChar c) := by
  obtain ⟨d, r1, ws1, r2, ds, r3, seps, r4, h1, h2, h3, h4, h5, hg1⟩ := matchHeaderFL_inv h
  obtain ⟨e1, hd3, hdc⟩ := matchDayChars_spec h1
  obtain ⟨e2, hwne, hwc⟩ := reqClass_spec h2
  obtain ⟨e3, hdne, hdsc⟩ := reqClass_spec h3
  have e4 : r3 = seps ++ r4 := by
    have := (optClass_spec isSepChar r3).1
    rw [h4] at this
    exact this
  have hsepc : ∀ c ∈ seps, isSepChar c := by
    have := (optClass_spec isSepChar r3).2
    rw [h4] at this
    exact this
  obtain ⟨e5, hnne, hnc⟩ := reqClass_spec h5
  constructor
  · rw [e1, e2, e3, e4, e5, hg1]
    simp [List.append_assoc]
  constructor
  · rw [hg1]
    intro hc
    rw [List.append_eq_nil] at hc
    have := hc.1
    rw [List.append_eq_nil] at this
    have := this.1
    rw [List.append_eq_nil] at this
    have := this.1
    rw [List.append_eq_nil] at this
    have hd := this.1
    rw [hd] at hd3
    cases hd3
  · intro c hc
    rw [hg1] at hc
    simp only [List.mem_append] at hc
    unfold isHeaderChar
    rcases hc with (((hc | hc) | hc) | hc) | hc
    · simp [hdc c hc]
    · simp [hwc c hc]
    · simp [hdsc c hc]
    · simp [hsepc c hc]
    · simp [hnc c hc]

theorem matchAtFL_inv {s : List Char} {m : FLMatch} {r : List Char}
    (h : matchAtFL s = some (m, r)) :
    ∃ g1 g2 r5, matchHeaderFL s = some (g1, g2, r5) ∧
      m.header = g1 ∧ m.dayName = g2 ∧
      m.content = (lazyContent (r5.dropWhile isSpaceChar)).1 ∧
      r = (lazyContent (r5.dropWhile isSpaceChar)).2 := by
  unfold matchAtFL at h
  cases hh : matchHeaderFL s with
  | none => rw [hh] at h; cases h
  | some v =>
    obtain ⟨g1, g2, r5⟩ := v
    rw [hh] at h
    have h' := Option.some.inj h
    refine ⟨g1, g2, r5, rfl, ?_, ?_, ?_, ?_⟩
    · exact (congrArg (fun x => x.1.header) h').symm
    · exact (congrArg (fun x => x.1.dayName) h').symm
    · exact (congrArg (fun x => x.1.content) h').symm
    · exact (congrArg (fun x => x.2) h').symm

theorem scanFLAux_mem :
    ∀ (f : Nat) (s : List Char) (m : FLMatch),
      m ∈ scanFLAux f s → ∃ s' r, matchAtFL s' = some (m, r) := by
  intro f
  induction f with
  | zero => intro s m h; cases h
  | succ f ih =>
    intro s m h
    cases s with
    | nil => cases h
    | cons c rest =>
      cases hm : matchAtFL (c :: rest) with
      | some v =>
        obtain ⟨m0, r0⟩ := v
        have hscan : scanFLAux (f + 1) (c :: rest) = m0 :: scanFLAux f r0 := by
          simp only [scanFLAux, hm]
        rw [hscan] at h
        rcases List.mem_cons.mp h with h1 | h1
        · exact ⟨c :: rest, r0, by rw [h1]; exact hm⟩
        · exact ih r0 m h1
      | none =>
        have hscan : scanFLAux (f + 1) (c :: rest) = scanFLAux f rest := by
          simp only [scanFLAux, hm]
        rw [hscan] at h
        exact ih rest m h

theorem no_delim_of_header_chars {g : List Char} (h : ∀ c ∈ g, isHeaderChar c) :
    ¬ DELIM <:+: g := by
  intro hinf
  have heq : '=' ∈ DELIM := by decide
  have hmem : '=' ∈ g := hinf.sublist.subset heq
  have := h '=' hmem
  exact absurd this (by decide)

theorem fl_match_facts {s : List Char} {m : FLMatch} {r : List Char}
    (h : matchAtFL s = some (m, r)) :
    (∀ c ∈ m.header, isHeaderChar c) ∧ ¬ DELIM <:+: m.content := by
  obtain ⟨g1, g2, r5, hh, hm1, _, hm3, _⟩ := matchAtFL_inv h
  obtain ⟨_, _, hchars⟩ := matchHeaderFL_spec hh
  constructor
  · rw [hm1]
    exact hchars
  · rw [hm3]
    exact lazyContent_no_delim _

theorem fl_value_no_delim {s : List Char} {m : FLMatch} (hm : m ∈ scanFL s) :
    ¬ DELIM <:+: (pyStrip m.header ++ '\n' :: pyStrip m.content) := by
  obtain ⟨s', r, h⟩ := scanFLAux_mem s.length s m hm
  obtain ⟨hchars, hnod⟩ := fl_match_facts h
  intro hinf
  have hnl : ¬ '\n' ∈ DELIM := by decide
  rcases sub_around_single hnl (pyStrip m.header) (pyStrip m.content) hinf with h1 | h1
  · exact no_delim_of_header_chars
      (fun c hc => hchars c ((pyStrip_sub m.header).sublist.subset hc)) h1
  · exact hnod (h1.trans (pyStrip_sub m.content))

/-- C10 counterexample: an input with no day header but containing the
delimiter: the parse falls back to the single `Full Plan` entry whose value
is the whole input, which does contain `-=*=-`. -/
theorem parse_fl_delim_fallback_counterexample :
    parse_meal_plan_by_day_fl "-=*=- untouched".toList =
      [("Full Plan".toList, "-=*=- untouched".toList)] ∧
    DELIM <:+: "-=*=- untouched".toList := by
  constructor
  · decide
  · exact ⟨[], " untouched".toList, rfl⟩

/-- C10 (amended): whenever at least one day header is recognized (so the
`Full Plan` fallback is not taken), no value of the map returned by the
delimiter-aware `parse_meal_plan_by_day` contains the delimiter `-=*=-`:
the header capture cannot consume `=` or `*`, and the lazy content capture
stops at or before the first delimiter occurrence. -/
theorem parse_fl_values_delim_free (s : List Char) (hne : scanFL s ≠ [])
    (kv : List Char × List Char) (hkv : kv ∈ parse_meal_plan_by_day_fl s) :
    ¬ DELIM <:+: kv.2 := by
  have hene : entriesFL s ≠ [] := by
    unfold entriesFL
    simpa using hne
  have hparse : parse_meal_plan_by_day_fl s = dfold (entriesFL s) := by
    unfold parse_meal_plan_by_day_fl
    rw [if_neg (by simpa [List.isEmpty_iff] using dfold_ne_nil hene)]
  rw [hparse] at hkv
  have hkv2 : kv ∈ entriesFL s := mem_dfold hkv
  obtain ⟨m, hm, hkveq⟩ := List.mem_map.mp hkv2
  rw [← hkveq]
  exact fl_value_no_delim hm

/-- C10 witness: a one-day input with a delimiter; the Monday value carries
no delimiter. -/
theorem parse_fl_values_delim_free_witness :
    scanFL "DAY 1: MONDAY food -=*=- rest".toList ≠ [] ∧
    ("Monday".toList, "DAY 1: MONDAY\nfood".toList) ∈
      parse_meal_plan_by_day_fl "DAY 1: MONDAY food -=*=- rest".toList ∧
    ¬ DELIM <:+: ("Monday".toList, "DAY 1: MONDAY\nfood".toList).2 :=
  ⟨by decide, by decide,
   parse_fl_values_delim_free ("DAY 1: MONDAY food -=*=- rest".toList) (by decide)
     ("Monday".toList, "DAY 1: MONDAY\nfood".toList) (by decide)⟩

/-- C3 counterexample: with no delimiter in the input, the first day's lazy
content runs to the end of the text, swallowing the second day header: the
result has a single Monday entry whose value contains `DAY 2: TUESDAY`,
instead of stopping at the start of the next header. -/
theorem fl_segment_counterexample :
    parse_meal_plan_by_day_fl "DAY 1: MONDAY oats DAY 2: TUESDAY eggs".toList =
      [("Monday".toList, "DAY 1: MONDAY\noats DAY 2: TUESDAY eggs".toList)] ∧
    "DAY 2: TUESDAY".toList <:+:
      "DAY 1: MONDAY\noats DAY 2: TUESDAY eggs".toList := by
  constructor
  · decide
  · exact ⟨"DAY 1: MONDAY\noats ".toList, " eggs".toList, by decide⟩

/-- C3 (amended): each recognized day's match decomposes the input at the
match position as header, then whitespace, then the captured content, which
is terminated by the first occurrence of `-=*=-` (with the whitespace before
it consumed), or by the end of the text, or by a sole trailing newline: the
next day header is not a terminator, so a header not preceded by a delimiter
is absorbed into the running content; the content itself never contains the
delimiter. -/
theorem fl_segment_extent (s : List Char) (m : FLMatch) (r : List Char)
    (h : matchAtFL s = some (m, r)) :
    ∃ ws1, (∀ c ∈ ws1, isSpaceChar c) ∧
      (¬ DELIM <:+: m.content) ∧
      ((∃ w2, (∀ c ∈ w2, isSpaceChar c) ∧
          s = m.header ++ ws1 ++ m.content ++ w2 ++ DELIM ++ r) ∨
       (r = [] ∧ s = m.header ++ ws1 ++ m.content) ∨
       (r = ['\n'] ∧ s = m.header ++ ws1 ++ m.content ++ ['\n'])) := by
  obtain ⟨g1, g2, r5, hh, hm1, hm2, hm3, hm4⟩ := matchAtFL_inv h
  obtain ⟨hsplit, hne, hchars⟩ := matchHeaderFL_spec hh
  set r6 := r5.dropWhile isSpaceChar with hr6
  refine ⟨r5.takeWhile isSpaceChar, fun c hc => List.mem_takeWhile_imp hc, ?_, ?_⟩
  · rw [hm3]
    exact lazyContent_no_delim r6
  · have hr5 : r5 = r5.takeWhile isSpaceChar ++ r6 :=
      (List.takeWhile_append_dropWhile isSpaceChar r5).symm
    have hs6 : s = m.header ++ r5.takeWhile isSpaceChar ++ r6 := by
      calc s = g1 ++ r5 := hsplit
        _ = g1 ++ (r5.takeWhile isSpaceChar ++ r6) := by rw [← hr5]
        _ = m.header ++ r5.takeWhile isSpaceChar ++ r6 := by
            rw [hm1, List.append_assoc]
    rcases lazyContent_cases r6 with ⟨w, rr, hw, hdec, hrr⟩ | ⟨h2, h1⟩ | ⟨h2, hdec⟩
    · left
      refine ⟨w, hw, ?_⟩
      rw [hm4, hrr, hs6, hdec, hm3]
      simp [List.append_assoc]
    · right; left
      constructor
      · rw [hm4, h2]
      · rw [hs6, ← h1, hm3]
    · right; right
      constructor
      · rw [hm4, h2]
      · rw [hs6, hdec, hm3]
        simp [List.append_assoc]




/-- C3 witness: a day whose content is closed by a delimiter; the
decomposition instantiates with the delimiter case. -/
theorem fl_segment_extent_witness :
    matchAtFL c3s = some (c3m, c3r) ∧
    (∃ ws1, (∀ c ∈ ws1, isSpaceChar c) ∧
      (¬ DELIM <:+: c3m.content) ∧
      ((∃ w2, (∀ c ∈ w2, isSpaceChar c) ∧
          c3s = c3m.header ++ ws1 ++ c3m.content ++ w2 ++ DELIM ++ c3r) ∨
       (c3r = [] ∧ c3s = c3m.header ++ ws1 ++ c3m.content) ∨
       (c3r = ['\n'] ∧ c3s = c3m.header ++ ws1 ++ c3m.content ++ ['\n']))) :=
  ⟨by decide, fl_segment_extent c3s c3m c3r (by decide)⟩

/-! ### Payload-selection lemmas for `recognize_food` -/

theorem upToLastRB_none {u : List Char} (h : ¬ RB ∈ u) : upToLastRB u = none := by
  induction u with
  | nil => rfl
  | cons c rest ih =>
    have hrest : ¬ RB ∈ rest := fun hm => h (List.mem_cons_of_mem _ hm)
    have hc : ¬ c = RB := fun hc => h (hc ▸ List.mem_cons_self c rest)
    have hstep : upToLastRB (c :: rest) =
        (match upToLastRB rest with
          | some g => some (c :: g)
          | none => if c = RB then some [c] else none) := rfl
    rw [hstep, ih hrest]
    exact if_neg hc

theorem upToLastRB_decomp {mid b : List Char} (hb : ¬ RB ∈ b) :
    upToLastRB (mid ++ RB :: b) = some (mid ++ [RB]) := by
  induction mid with
  | nil =>
    have hstep : upToLastRB ([] ++ RB :: b) =
        (match upToLastRB b with
          | some g => some (RB :: g)
          | none => if RB = RB then some [RB] else none) := rfl
    rw [hstep, upToLastRB_none hb]
    show (if RB = RB then some [RB] else none) = some ([] ++ [RB])
    rw [if_pos rfl]
    rfl
  | cons c m' ih =>
    have hstep : upToLastRB ((c :: m') ++ RB :: b) =
        (match upToLastRB (m' ++ RB :: b) with
          | some g => some (c :: g)
          | none => if c = RB then some [c] else none) := rfl
    rw [hstep, ih]
    rfl

theorem braceSpan_decomp {a mid b : List Char} (ha : ¬ LB ∈ a) (hb : ¬ RB ∈ b) :
    braceSpan (a ++ LB :: mid ++ RB :: b) = some (LB :: mid ++ [RB]) := by
  induction a with
  | nil =>
    have hstep : braceSpan ([] ++ LB :: mid ++ RB :: b) =
        (match upToLastRB (mid ++ RB :: b) with
          | some g => some (LB :: g)
          | none => none) := rfl
    rw [hstep, upToLastRB_decomp hb]
    rfl
  | cons y a' ih =>
    have hy : ¬ y = LB := fun hc => ha (hc ▸ List.mem_cons_self y a')
    have ha' : ¬ LB ∈ a' := fun hm => ha (List.mem_cons_of_mem _ hm)
    have hstep : braceSpan ((y :: a') ++ LB :: mid ++ RB :: b) =
        (if y = LB then
          match upToLastRB (a' ++ LB :: mid ++ RB :: b) with
          | some g => some (y :: g)
          | none => none
         else braceSpan (a' ++ LB :: mid ++ RB :: b)) := rfl
    rw [hstep, if_neg hy]
    exact ih ha'

theorem lazyToFence_spec :
    ∀ {s g : List Char}, lazyToFence s = some g →
      ∃ w2 rr, (∀ c ∈ w2, isSpaceChar c) ∧ s = g ++ w2 ++ FENCE3 ++ rr := by
  intro s
  induction s with
  | nil => intro g h; cases h
  | cons c rest ih =>
    intro g h
    have hstep : lazyToFence (c :: rest) =
        (if FENCE3.isPrefixOf ((c :: rest).dropWhile isSpaceChar) then some []
         else match lazyToFence rest with
           | some g => some (c :: g)
           | none => none) := rfl
    rw [hstep] at h
    by_cases hp : FENCE3.isPrefixOf ((c :: rest).dropWhile isSpaceChar) = true
    · rw [if_pos hp] at h
      cases h
      have hpre : FENCE3 <+: (c :: rest).dropWhile isSpaceChar := by
        rw [← List.isPrefixOf_iff_prefix]
        exact hp
      obtain ⟨u, hu⟩ := hpre
      refine ⟨(c :: rest).takeWhile isSpaceChar, u,
        fun x hx => List.mem_takeWhile_imp hx, ?_⟩
      calc c :: rest
          = (c :: rest).takeWhile isSpaceChar ++ (c :: rest).dropWhile isSpaceChar :=
            (List.takeWhile_append_dropWhile isSpaceChar (c :: rest)).symm
        _ = (c :: rest).takeWhile isSpaceChar ++ (FENCE3 ++ u) := by rw [hu]
        _ = [] ++ (c :: rest).takeWhile isSpaceChar ++ FENCE3 ++ u := by
            simp [List.append_assoc]
    · rw [if_neg hp] at h
      cases hrec : lazyToFence rest with
      | none => rw [hrec] at h; cases h
      | some g' =>
        rw [hrec] at h
        cases h
        obtain ⟨w2, rr, hw, hdec⟩ := ih hrec
        refine ⟨w2, rr, hw, ?_⟩
        rw [show c :: rest = c :: (g' ++ w2 ++ FENCE3 ++ rr) from by rw [← hdec]]
        simp [List.append_assoc]

theorem fencedJson_sound :
    ∀ {s g : List Char}, fencedJson s = some g →
      ∃ a w1 w2 rr, (∀ c ∈ w1, isSpaceChar c) ∧ (∀ c ∈ w2, isSpaceChar c) ∧
        s = a ++ FENCEJSON ++ w1 ++ g ++ w2 ++ FENCE3 ++ rr := by
  intro s
  induction s with
  | nil => intro g h; cases h
  | cons c rest ih =>
    intro g h
    have hstep : fencedJson (c :: rest) =
        (if FENCEJSON.isPrefixOf (c :: rest) then
          match lazyToFence (((c :: rest).drop 7).dropWhile isSpaceChar) with
          | some g => some g
          | none => fencedJson rest
         else fencedJson rest) := rfl
    rw [hstep] at h
    by_cases hp : FENCEJSON.isPrefixOf (c :: rest) = true
    · rw [if_pos hp] at h
      cases hlz : lazyToFence (((c :: rest).drop 7).dropWhile isSpaceChar) with
      | some g0 =>
        rw [hlz] at h
        cases h
        have hpre : FENCEJSON <+: c :: rest := by
          rw [← List.isPrefixOf_iff_prefix]
          exact hp
        obtain ⟨u, hu⟩ := hpre
        have hdrop7 : (c :: rest).drop 7 = u := by
          rw [← hu]
          exact List.drop_left' (by rfl)
        obtain ⟨w2, rr, hw2, hdec⟩ := lazyToFence_spec hlz
        refine ⟨[], u.takeWhile isSpaceChar, w2, rr,
          fun x hx => List.mem_takeWhile_imp hx, hw2, ?_⟩
        have hdec' : u.dropWhile isSpaceChar = g ++ w2 ++ FENCE3 ++ rr := by
          rw [← hdrop7]
          exact hdec
        calc c :: rest = FENCEJSON ++ u := hu.symm
          _ = FENCEJSON ++ (u.takeWhile isSpaceChar ++ u.dropWhile isSpaceChar) := by
              rw [List.takeWhile_append_dropWhile]
          _ = FENCEJSON ++ (u.takeWhile isSpaceChar ++ (g ++ w2 ++ FENCE3 ++ rr)) := by
              rw [hdec']
          _ = [] ++ FENCEJSON ++ u.takeWhile isSpaceChar ++ g ++ w2 ++ FENCE3 ++ rr := by
              simp [List.append_assoc]
      | none =>
        rw [hlz] at h
        obtain ⟨a, w1, w2, rr, hw1, hw2, hdec⟩ := ih h
        refine ⟨c :: a, w1, w2, rr, hw1, hw2, ?_⟩
        rw [show c :: rest = c :: (a ++ FENCEJSON ++ w1 ++ g ++ w2 ++ FENCE3 ++ rr) from by
          rw [← hdec]]
        simp [List.append_assoc]
    · rw [if_neg hp] at h
      obtain ⟨a, w1, w2, rr, hw1, hw2, hdec⟩ := ih h
      refine ⟨c :: a, w1, w2, rr, hw1, hw2, ?_⟩
      rw [show c :: rest = c :: (a ++ FENCEJSON ++ w1 ++ g ++ w2 ++ FENCE3 ++ rr) from by
        rw [← hdec]]
      simp [List.append_assoc]

/-- C7: the payload-selection order of `recognize_food`: (1) if the
stripped response starts with a left brace, the whole response is the
payload; (2) else, if a fenced ` ```json ` block exists (the match
decomposing the text as shown by `fencedJson_sound`), its inner content is
the payload; (3) else, if the text splits as `a ++ LB :: mid ++ RB :: b`
with no left brace before and no right brace after (the greedy
first-brace-to-last-brace span), that span is the payload. -/
theorem choose_json_payload_order (s : List Char) :
    ((pyStrip s).head? = some LB → choose_json_payload s = s) ∧
    ((pyStrip s).head? ≠ some LB → ∀ g, fencedJson s = some g →
      choose_json_payload s = g ∧
      ∃ a w1 w2 rr, (∀ c ∈ w1, isSpaceChar c) ∧ (∀ c ∈ w2, isSpaceChar c) ∧
        s = a ++ FENCEJSON ++ w1 ++ g ++ w2 ++ FENCE3 ++ rr) ∧
    ((pyStrip s).head? ≠ some LB → fencedJson s = none →
      ∀ a mid b, s = a ++ LB :: mid ++ RB :: b → ¬ LB ∈ a → ¬ RB ∈ b →
        choose_json_payload s = LB :: mid ++ [RB]) := by
  refine ⟨?_, ?_, ?_⟩
  · intro h
    unfold choose_json_payload
    rw [if_pos h]
  · intro h g hg
    constructor
    · unfold choose_json_payload
      rw [if_neg h, hg]
    · exact fencedJson_sound hg
  · intro h hf a mid b hs ha hb
    unfold choose_json_payload
    rw [if_neg h, hf, hs, braceSpan_decomp ha hb]

/-- C7 witness: a response with no leading brace and no fence; the payload
is the first-to-last brace span. -/
theorem choose_json_payload_order_witness :
    ¬ (pyStrip "abc \x7bx\x7d y\x7d".toList).head? = some LB ∧
    fencedJson "abc \x7bx\x7d y\x7d".toList = none ∧
    "abc \x7bx\x7d y\x7d".toList =
      "abc ".toList ++ LB :: "x\x7d y".toList ++ RB :: [] ∧
    choose_json_payload "abc \x7bx\x7d y\x7d".toList = LB :: "x\x7d y".toList ++ [RB] :=
  ⟨by decide, by decide, by decide,
   (choose_json_payload_order _).2.2 (by decide) (by decide)
     ("abc ".toList) ("x\x7d y".toList) [] (by decide) (by decide) (by decide)⟩

set_option maxRecDepth 8192 in
/-- C6 counterexample: on unparseable free text, the failure result of
`recognize_food` nowhere reports the kind `Unparseable Food Response`: its
message is `Could not parse nutritional data. ...` followed by the raw
text. -/
theorem recognize_fail_kind_counterexample :
    recognize_food_norm (fun _ => none) "hello there".toList =
      RecognizeResult.fail [JValue.str "Unknown".toList]
        (failRespMsg ++ "hello there".toList) ∧
    ¬ "Unparseable Food Response".toList <:+: (failRespMsg ++ "hello there".toList) := by
  constructor
  · rfl
  · decide

/-- C6 (amended): for every response text whose chosen payload the JSON
parser cannot parse, `recognize_food` returns (never raises) the failure
dictionary: `detected_items = ["Unknown"]` and a message that is the fixed
`Could not parse nutritional data. Here's the raw response:` text followed
by the original raw response, carrying it forward for display. -/
theorem recognize_parse_failure_carries_raw (jparse : List Char → Option JValue)
    (raw : List Char) (h : jparse (choose_json_payload raw) = none) :
    ∃ msg, recognize_food_norm jparse raw =
        RecognizeResult.fail [JValue.str "Unknown".toList] msg ∧
      msg = failRespMsg ++ raw ∧ raw <:+ msg := by
  refine ⟨failRespMsg ++ raw, ?_, rfl, ⟨failRespMsg, rfl⟩⟩
  unfold recognize_food_norm
  rw [h]

/-- C6 witness: a parser failing on the chosen payload of a plain-text
response. -/
theorem recognize_parse_failure_carries_raw_witness :
    (fun _ : List Char => (none : Option JValue))
        (choose_json_payload "no json here".toList) = none ∧
    (∃ msg, recognize_food_norm (fun _ => none) "no json here".toList =
        RecognizeResult.fail [JValue.str "Unknown".toList] msg ∧
      msg = failRespMsg ++ "no json here".toList ∧
      "no json here".toList <:+ msg) :=
  ⟨rfl, recognize_parse_failure_carries_raw (fun _ => none) ("no json here".toList) rfl⟩

/-- C9: whenever JSON parsing of the chosen payload fails, the returned
dictionary is the failure dictionary: `detected_items` is exactly
`["Unknown"]` (one pseudo-detected item, not an empty list) and the result
is never the success dictionary, so it carries no `raw_data` key. -/
theorem recognize_fail_unknown_no_raw (jparse : List Char → Option JValue)
    (raw : List Char) (h : jparse (choose_json_payload raw) = none) :
    recognize_food_norm jparse raw =
      RecognizeResult.fail [JValue.str "Unknown".toList] (failRespMsg ++ raw) ∧
    [JValue.str "Unknown".toList] ≠ ([] : List JValue) ∧
    ∀ d a nd, recognize_food_norm jparse raw ≠ RecognizeResult.ok d a nd := by
  have heq : recognize_food_norm jparse raw =
      RecognizeResult.fail [JValue.str "Unknown".toList] (failRespMsg ++ raw) := by
    unfold recognize_food_norm
    rw [h]
  refine ⟨heq, by simp, ?_⟩
  intro d a nd hc
  rw [heq] at hc
  exact RecognizeResult.noConfusion hc

/-- C9 witness: the failure shape at a concrete unparseable response. -/
theorem recognize_fail_unknown_no_raw_witness :
    (fun _ : List Char => (none : Option JValue))
        (choose_json_payload "plain words".toList) = none ∧
    (recognize_food_norm (fun _ => none) "plain words".toList =
      RecognizeResult.fail [JValue.str "Unknown".toList]
        (failRespMsg ++ "plain words".toList) ∧
    [JValue.str "Unknown".toList] ≠ ([] : List JValue) ∧
    ∀ d a nd, recognize_food_norm (fun _ => none) "plain words".toList ≠
      RecognizeResult.ok d a nd) :=
  ⟨rfl, recognize_fail_unknown_no_raw (fun _ => none) ("plain words".toList) rfl⟩

/-- C4: (spec-modelled nutrient extractor) for a day text whose Protein
search finds 42 and whose other four nutrient searches find nothing,
`extract` returns the snapshot `{Protein: 42.0}` and the missing list
`Calories, Carbs, Fat, Fiber` (first-checked order), each paired with its
fixed suggestion sentence. -/
theorem extract_protein_only (t : List Char)
    (hp : findNutrient (nutrientName Nutrient.protein) t = some ⟨42, 0⟩)
    (hmiss : ∀ n ∈ [Nutrient.calories, Nutrient.carbs, Nutrient.fat, Nutrient.fiber],
      findNutrient (nutrientName n) t = none) :
    extract t = ([(Nutrient.protein, ⟨42, 0⟩)],
      [(Nutrient.calories, suggestionFor Nutrient.calories),
       (Nutrient.carbs, suggestionFor Nutrient.carbs),
       (Nutrient.fat, suggestionFor Nutrient.fat),
       (Nutrient.fiber, suggestionFor Nutrient.fiber)]) ∧
    (Decimal.mk 42 0).toRat = 42 := by
  have hc := hmiss Nutrient.calories (by simp)
  have hcb := hmiss Nutrient.carbs (by simp)
  have hf := hmiss Nutrient.fat (by simp)
  have hfb := hmiss Nutrient.fiber (by simp)
  constructor
  · unfold extract nutrientOrder
    rw [Prod.mk.injEq]
    constructor
    · simp [List.filterMap_cons, hp, hc, hcb, hf, hfb]
    · simp [List.filter_cons, hp, hc, hcb, hf, hfb]
  · norm_num [Decimal.toRat]

/-- C4 witness: the day text `Protein: 42`. -/
theorem extract_protein_only_witness :
    findNutrient (nutrientName Nutrient.protein) "Protein: 42".toList = some ⟨42, 0⟩ ∧
    (∀ n ∈ [Nutrient.calories, Nutrient.carbs, Nutrient.fat, Nutrient.fiber],
      findNutrient (nutrientName n) "Protein: 42".toList = none) ∧
    (extract "Protein: 42".toList = ([(Nutrient.protein, ⟨42, 0⟩)],
      [(Nutrient.calories, suggestionFor Nutrient.calories),
       (Nutrient.carbs, suggestionFor Nutrient.carbs),
       (Nutrient.fat, suggestionFor Nutrient.fat),
       (Nutrient.fiber, suggestionFor Nutrient.fiber)]) ∧
    (Decimal.mk 42 0).toRat = 42) :=
  ⟨by decide, by decide, extract_protein_only ("Protein: 42".toList) (by decide) (by decide)⟩

/-- C5: the `foodlogger.py` variant of `generate_meal_plan` catches every
failure and returns a string, but the string does not begin with `Error`:
a `requests` failure yields `API Request Error: ...` (and the caller's
`meal_plan.startswith("Error")` check at `foodlogger.py:324` therefore
misses it), while the `main.py` variant does begin every failure string
with `Error`. -/
theorem generate_meal_plan_error_prefix_bug :
    generate_meal_plan_fl (some "key".toList) (ApiOutcome.requestError "timeout".toList) =
      "API Request Error: timeout".toList ∧
    ¬ "Error".toList <+: generate_meal_plan_fl (some "key".toList)
        (ApiOutcome.requestError "timeout".toList) ∧
    (∀ e, "Error".toList <+: generate_meal_plan_main (ApiOutcome.requestError e)) := by
  refine ⟨rfl, by decide, ?_⟩
  intro e
  exact ⟨" generating meal plan: ".toList ++ e, rfl⟩
